import Mathlib

/-!
Shallow embedding of the LEMS-logmerge repository (src/watcher.py and
src/hermaeus-mora.py) and proofs about its tailing, schema detection and
ingestion logic.

Modelling conventions:
* File bytes are modelled as `List Char` (one character per byte; the
  `utf-8-sig` decode with errors ignored is the identity on this alphabet,
  and multi-byte sequences are outside the scope of the claims).
* `str.splitlines` splits at its full boundary set (`\n`, `\r`, `\r\n`,
  `\v`, `\f`, `\x1c`-`\x1e`, `\x85`, U+2028, U+2029 — `isTermC`), while
  the source's `endswith("\n")`/`endswith("\r")` withhold test,
  `rstrip("\r\n")` and `csv.reader`'s line ends use only `\n`/`\r`
  (`isRNC`); the two sets are kept distinct throughout.
* CSV parsing is modelled for unquoted content (the instrument export rows
  contain no quote characters): a row is the comma-split of the text up to
  the first `\n`/`\r`, and a blank line yields the empty row, as
  `csv.reader` does. On a line with an interior bare newline followed by
  content `csv.reader` instead raises an uncaught `_csv.Error`
  (`csvOkB` marks the non-raising lines); statements about single-line
  parses are conditioned on that.
* Python `float(...)` values are modelled exactly: a finite literal is
  kept as its decimal mantissa and power-of-ten exponent, and the
  `inf`/`infinity`/`nan` literals map to distinguished non-finite values
  (`PyFloat`). PEP 515 underscore grouping is accepted as Python does
  (each digit part validated separately). Rounding and overflow of huge
  literals are not modelled, the accepted-literal set is; claims only
  ever compare values produced by this parser itself.
-/

set_option autoImplicit false

namespace LogMerge

/-- File contents and Python strings, one `Char` per byte. -/
abbrev Str := List Char

def str (s : String) : Str := s.data

/-- A line boundary of Python `str.splitlines`: besides `"\n"` and
`"\r"` it splits at `"\v"`, `"\f"`, the separators `"\x1c"`-`"\x1e"`,
the next-line character `"\x85"` and the Unicode separators
U+2028/U+2029 (the two-character terminator
`"\r\n"` is handled by the splitter itself). -/
def isTermC (c : Char) : Bool :=
  c = '\n' || c = '\r' || c = '\x0b' || c = '\x0c' || c = '\x1c' ||
    c = '\x1d' || c = '\x1e' || c = '\x85' || c = '\u2028' || c = '\u2029'

/-- Only `'\n'` and `'\r'`: the characters tested by the source's
explicit `endswith("\n") / endswith("\r")` withhold check and stripped
by `rstrip("\r\n")`, and the only line ends `csv.reader` knows. -/
def isRNC (c : Char) : Bool := c = '\n' || c = '\r'

def noTermB (s : Str) : Bool := s.all fun c => !isTermC c

/-- Whitespace stripped by Python `str.strip()`: the ASCII/Latin-1
whitespace (including the separators `"\x1c"`-`"\x1f"`, `"\x85"` and
`"\xa0"`) and the Unicode space and line/paragraph separators. -/
def isSpaceC (c : Char) : Bool :=
  c = ' ' || c = '\t' || c = '\n' || c = '\r' || c = '\x0b' || c = '\x0c' ||
    c = '\x1c' || c = '\x1d' || c = '\x1e' || c = '\x1f' || c = '\x85' ||
    c = '\xa0' || c = '\u1680' || c = '\u2000' || c = '\u2001' ||
    c = '\u2002' || c = '\u2003' || c = '\u2004' || c = '\u2005' ||
    c = '\u2006' || c = '\u2007' || c = '\u2008' || c = '\u2009' ||
    c = '\u200a' || c = '\u2028' || c = '\u2029' || c = '\u202f' ||
    c = '\u205f' || c = '\u3000'

/-- Python `s.strip()`. -/
def pyStrip (s : Str) : Str :=
  ((s.dropWhile isSpaceC).reverse.dropWhile isSpaceC).reverse

/-- Python `s.lower()` (ASCII subset). -/
def lowerS (s : Str) : Str := s.map Char.toLower

/-- Python `s.rstrip("\r\n")` as used on each line before CSV parsing:
only `'\r'` and `'\n'` are stripped. -/
def rstripRN (s : Str) : Str := (s.reverse.dropWhile isRNC).reverse

/-- The text up to the first `'\r'`/`'\n'`; `csv.reader` recognises only
those as line ends (all other characters, including `"\v"` etc., are
ordinary field data to it). -/
def truncAtTerm (s : Str) : Str := s.takeWhile fun c => !isRNC c

/-- `next(csv.reader([line]))` completes without raising exactly when
after the first `'\r'`/`'\n'` of `line` only further `'\r'`/`'\n'`
characters follow: an interior bare newline with content after it makes
the parser raise an uncaught `_csv.Error` (aborting the program). -/
def csvOkB (line : Str) : Bool :=
  (line.dropWhile fun c => !isRNC c).all isRNC

/-- Prepend a character to the first piece of a piece list (starting a
new piece when there is none). -/
def consLine (c : Char) : List Str → List Str
  | [] => [[c]]
  | l :: ls => (c :: l) :: ls

/-- `f.readline()` in binary mode splits on `'\n'` only: the lines of a
byte string under that rule, terminators kept. -/
def splitNL : Str → List Str
  | [] => []
  | '\n' :: r => ['\n'] :: splitNL r
  | c :: r => consLine c (splitNL r)

/-- Python `str.splitlines(keepends=True)`: a line ends at any single
`isTermC` boundary character, except that `"\r\n"` counts as one
two-character terminator; terminators are kept. -/
def splitK : Str → List Str
  | [] => []
  | [c] => [[c]]
  | c :: d :: r =>
    if c = '\r' && d = '\n' then ['\r', '\n'] :: splitK r
    else if isTermC c then [c] :: splitK (d :: r)
    else consLine c (splitK (d :: r))

def modLast (g : Str → Str) : List Str → List Str
  | [] => []
  | [l] => [g l]
  | l :: ls => l :: modLast g ls

/-- Comma split of terminator-free text (unquoted CSV fields). -/
def splitComma : Str → List Str
  | [] => [[]]
  | ',' :: r => [] :: splitComma r
  | c :: r => consLine c (splitComma r)

/-- The text strictly after the last line terminator of `s` (the whole of
`s` when it has none): the unterminated final fragment. -/
def fragPart (s : Str) : Str := (s.reverse.takeWhile fun c => !isTermC c).reverse

/-- The part of `s` up to and including its last line terminator (empty
when it has none). -/
def termPart (s : Str) : Str := (s.reverse.dropWhile fun c => !isTermC c).reverse

def hasTermB (s : Str) : Bool := s.any isTermC

def totalLen (ls : List Str) : Nat := (ls.map List.length).sum

/-- The first CSV row `next(csv.reader([line]))` yields for `line`
(unquoted content) when the call does not raise — see `csvOkB` for the
raising condition: the comma split of the text before the first
`'\r'`/`'\n'`, the empty row for a blank line. -/
def csvRow (line : Str) : List Str :=
  if truncAtTerm line = [] then [] else splitComma (truncAtTerm line)

/-- `next(csv.reader([line]))` with its error path: `none` when the call
raises `_csv.Error` (an interior bare newline with content after it,
which aborts the program), otherwise the parsed first row. -/
def csvRow? (line : Str) : Option (List Str) :=
  if csvOkB line then some (csvRow line) else none

/-- The tail of a PEP 515 `digitpart` after its leading digit: digits
with single underscores allowed strictly between digits. -/
def dgTail : Str → Bool
  | [] => true
  | ['_'] => false
  | '_' :: c :: r => c.isDigit && dgTail r
  | c :: r => c.isDigit && dgTail r

/-- A PEP 515 `digitpart`: `digit (["_"] digit)*` — nonempty, starting
and ending with a digit, underscores only between digits. -/
def digitGroupOk : Str → Bool
  | [] => false
  | c :: r => c.isDigit && dgTail r

/-- Drop the PEP 515 grouping underscores before reading the digits. -/
def stripUnders (s : Str) : Str := s.filter fun c => c ≠ '_'

/-- Python `int(s)` succeeds on the (already stripped) string `s`:
an optional sign followed by a digit group (PEP 515 underscores between
digits allowed, so `int("1_0")` is accepted). -/
def pyIntOk (s : Str) : Bool :=
  match s with
  | '+' :: r => digitGroupOk r
  | '-' :: r => digitGroupOk r
  | r => digitGroupOk r

/-- The value space of Python `float`: exact finite values (the decimal
mantissa `mant` and exponent `exp10`, denoting `mant * 10 ^ exp10`) plus
the two infinities and nan. -/
inductive PyFloat where
  | finite (mant : Int) (exp10 : Int)
  | pinf
  | ninf
  | nan
deriving DecidableEq

def PyFloat.isFiniteV : PyFloat → Bool
  | finite _ _ => true
  | _ => false

def digitsToNat (s : Str) : Nat :=
  s.foldl (fun n c => n * 10 + (c.toNat - '0'.toNat)) 0

def splitSign : Str → Bool × Str
  | '+' :: r => (false, r)
  | '-' :: r => (true, r)
  | s => (false, s)

/-- Split a mantissa at its decimal point; `none` if there is more than
one point. -/
def splitDot : Str → Option (Str × Str)
  | [] => some ([], [])
  | '.' :: r => if r.contains '.' then none else some ([], r)
  | c :: r => (splitDot r).map fun p => (c :: p.1, p.2)

/-- Split a float literal at its exponent marker `e`/`E`, if any. -/
def splitExp : Str → Str × Option Str
  | [] => ([], none)
  | c :: r =>
    if c = 'e' || c = 'E' then ([], some r)
    else
      let p := splitExp r
      (c :: p.1, p.2)

def parseExpPart (s : Str) : Option Int :=
  let p := splitSign s
  if digitGroupOk p.2 then
    some (if p.1 then -(digitsToNat (stripUnders p.2) : Int)
          else (digitsToNat (stripUnders p.2) : Int))
  else none

/-- Python `float(s)` on an already stripped string `s`: `none` when it
raises `ValueError`, otherwise the exact parsed value. The integer part
and the fraction part are each validated as a PEP 515 digit group (each
may be empty, not both), so `float("1_5")` parses to `15.0` while
`"1_.5"`, `"1._5"` and `"1__5"` are rejected; the mantissa and the
fractional digit count are read with the underscores removed. -/
def pyFloat? (s : Str) : Option PyFloat :=
  let sg := splitSign s
  let lb := lowerS sg.2
  if lb = str "inf" ∨ lb = str "infinity" then
    some (if sg.1 then .ninf else .pinf)
  else if lb = str "nan" then some .nan
  else
    let me := splitExp sg.2
    match splitDot me.1 with
    | none => none
    | some (ip, fp) =>
      if (ip.isEmpty && fp.isEmpty) ||
          (!ip.isEmpty && !digitGroupOk ip) || (!fp.isEmpty && !digitGroupOk fp) then none
      else
        let ds := stripUnders ip ++ stripUnders fp
        let mkv : Int → PyFloat := fun e =>
          .finite (if sg.1 then -(digitsToNat ds : Int) else (digitsToNat ds : Int))
            (e - ((stripUnders fp).length : Int))
        match me.2 with
        | none => some (mkv 0)
        | some es =>
          match parseExpPart es with
          | none => none
          | some e => some (mkv e)

/-- One yielded measurement tuple
`(timestamp, source, channel, value, extra)` of `watcher.py`. -/
structure Meas where
  ts : Str
  source : Str
  channel : Str
  value : PyFloat
  extra : Str
deriving DecidableEq

/-- The per-file tracking state, `FileState` of `watcher.py`. -/
structure FileState where
  path : Str
  source : Str
  backfill : Bool
  header_found : Bool
  channels : List Str
  channel_cols : List Nat
  pos : Nat
  remainder : Str
deriving DecidableEq

/-- A fresh `FileState(path=..., source=..., backfill=...)`. -/
def initState (path source : Str) (backfill : Bool) : FileState :=
  ⟨path, source, backfill, false, [], [], 0, []⟩

/-- The `HEADER_LEADER` constant of `watcher.py` (defined there, never
consulted by any header check). -/
def HEADER_LEADER : Str := str "Scan Sweep Time (Sec)"

def scanNumberLit : Str := str "scan number"

/-- The header test used at all three scan sites of `watcher.py`:
`row and len(row) > 1 and row[1].strip().lower() == "scan number"`. -/
def headerCheck (row : List Str) : Bool :=
  decide (1 < row.length ∧ lowerS (pyStrip (row.getD 1 [])) = scanNumberLit)

/-- The binding loop `for idx in range(2, len(row)) ...`: non-blank
stripped cells from index 2 on, with their absolute column indices.
The argument is `row.drop 2` and the running index starts at 2. -/
def channelsFrom : List Str → Nat → List Str × List Nat
  | [], _ => ([], [])
  | cell :: rest, idx =>
    let p := channelsFrom rest (idx + 1)
    if pyStrip cell = [] then p else (pyStrip cell :: p.1, idx :: p.2)

/-- Record a recognised header row into the state. -/
def bindHeader (st : FileState) (row : List Str) : FileState :=
  let p := channelsFrom (row.drop 2) 2
  { st with channels := p.1, channel_cols := p.2, header_found := true }

/-- The `readline`-based header-discovery loop (lines 140-163 of
`watcher.py`, also the body of `ensure_header_and_position`): consume
lines, advancing `pos` past each one, and stop at the first line whose
first CSV row passes `headerCheck`. -/
def discoverGo : FileState → List Str → FileState
  | st, [] => st
  | st, line :: rest =>
    let st1 := { st with pos := st.pos + line.length }
    let row := csvRow line
    if headerCheck row then bindHeader st1 row else discoverGo st1 rest

/-- The per-data-row emission of `read_new_measurements`: row-validity
gate (length, integer scan number), then one measurement per bound
channel whose column is in range, non-blank and float-parsable. -/
def rowMeas (source : Str) (channels : List Str) (cols : List Nat)
    (extra : Str) (row : List Str) : List Meas :=
  if row.length < 2 then []
  else
    let ts := pyStrip (row.getD 0 [])
    let scan := pyStrip (row.getD 1 [])
    if !pyIntOk scan then []
    else if channels.isEmpty || cols.isEmpty then []
    else
      (channels.zip cols).filterMap fun nc =>
        if nc.2 < row.length then
          let v := pyStrip (row.getD nc.2 [])
          if v = [] then none
          else
            match pyFloat? v with
            | some x => some ⟨ts, source, nc.1, x, extra⟩
            | none => none
        else none

/-- The `for row in reader` loop of `read_new_measurements`: while the
header is unknown each row is only tested as a header; afterwards each
row goes through `rowMeas`. -/
def processRows (extra : Str) : FileState → List (List Str) → FileState × List Meas
  | st, [] => (st, [])
  | st, row :: rest =>
    if st.header_found then
      let p := processRows extra st rest
      (p.1, rowMeas st.source st.channels st.channel_cols extra row ++ p.2)
    else
      let st1 := if headerCheck row then bindHeader st row else st
      processRows extra st1 rest

/-- Ends in a `splitlines` boundary character (wide set). -/
def endsTermB (s : Str) : Bool :=
  match s.getLast? with
  | some c => isTermC c
  | none => false

/-- The source's withhold test on the last split line:
`lines[-1].endswith("\n") or lines[-1].endswith("\r")` — narrow, only
`'\n'`/`'\r'` count, so a line completed by `"\v"` etc. is withheld. -/
def endsRNB (s : Str) : Bool :=
  match s.getLast? with
  | some c => isRNC c
  | none => false

/-- The withhold step on an already split line list: keep the last line
back when it does not end in `'\n'`/`'\r'`. -/
def tailPieces (ls : List Str) : List Str × Str :=
  match ls.getLast? with
  | none => ([], [])
  | some l => if endsRNB l then (ls, []) else (ls.dropLast, l)

/-- `lines = data.splitlines(keepends=True)` followed by the withhold of
a final line not ending in `'\n'`/`'\r'`: the processed lines and the
retained fragment. -/
def splitTail (d : Str) : List Str × Str := tailPieces (splitK d)

/-- `os.path.basename`. -/
def pyBasename (p : Str) : Str :=
  (p.reverse.takeWhile fun c => c ≠ '/' && c ≠ '\\').reverse

/-- The truncation reset of `read_new_measurements` (lines 128-132):
`pos = 0; remainder = ""; header_found = False; channels = []`.
Note the source does not touch `channel_cols` here. -/
def truncReset (st : FileState) : FileState :=
  { st with pos := 0, remainder := [], header_found := false, channels := [] }

/-- The bulk phase of `read_new_measurements` (lines 166-226): one read
from `pos` to the end, line reassembly with the pending remainder, the
withhold of a non-terminated final line, row processing, and the cursor
advance `self.pos += len(raw_chunk)`. -/
def bulkPhase (content : Str) (st : FileState) : FileState × List Meas :=
  let extra := pyBasename st.path
  let chunk := content.drop st.pos
  if chunk = [] then (st, [])
  else
    let data := st.remainder ++ chunk
    let p := splitTail data
    let rows := p.1.map fun l => csvRow (rstripRN l)
    let q := processRows extra { st with remainder := p.2 } rows
    ({ q.1 with pos := st.pos + chunk.length }, q.2)

/-- `read_new_measurements` after the truncation check: header discovery
if needed, then the bulk phase. -/
def readAfterTrunc (content : Str) (st0 : FileState) : FileState × List Meas :=
  bulkPhase content
    (if st0.header_found then st0 else discoverGo st0 (splitNL (content.drop st0.pos)))

/-- `FileState.read_new_measurements` for a file currently holding
`content`: the updated state and the produced measurements. -/
def read_new_measurements (content : Str) (st : FileState) : FileState × List Meas :=
  readAfterTrunc content (if content.length < st.pos then truncReset st else st)

/-- `FileState.ensure_header_and_position` for a file holding `content`:
scan from byte 0 for the header; if none, clear `channels` and position
at end; if not backfilling, position at end regardless. -/
def ensure_header_and_position (content : Str) (st : FileState) : FileState :=
  let st1 := discoverGo { st with pos := 0, header_found := false } (splitNL content)
  let st2 := if st1.header_found then st1
             else { st1 with channels := [], pos := content.length }
  if st2.backfill then st2 else { st2 with pos := content.length }

/-- The states a tracked file's `FileState` can reach: created fresh,
then driven by `ensure_header_and_position` and `read_new_measurements`
with arbitrary file contents. -/
inductive Reachable : FileState → Prop where
  | init (path source : Str) (backfill : Bool) :
      Reachable (initState path source backfill)
  | ensure (st : FileState) (content : Str) :
      Reachable st → Reachable (ensure_header_and_position content st)
  | poll (st : FileState) (content : Str) :
      Reachable st → Reachable (read_new_measurements content st).1

/-- The observable actions of one pass of the `watch` loop. -/
inductive WAct where
  | check
  | work
  | sleep
  | ret
deriving DecidableEq

/-- The `while True` loop of `watch` (lines 258-282): at the top of each
iteration `should_stop` is sampled (its value at the k-th sampling is
`stop k`); a true result returns; otherwise the cycle's work runs
(discover files, drop vanished ones, pull every tracker through
`read_new_measurements`) and then `time.sleep(poll_interval)`.
`fuel` bounds the number of iterations unrolled. -/
def watchActs (stop : Nat → Bool) : Nat → Nat → List WAct
  | _, 0 => []
  | k, fuel + 1 =>
    WAct.check ::
      (if stop k then [WAct.ret]
       else WAct.work :: WAct.sleep :: watchActs stop (k + 1) fuel)

/-- Adjacent-pair condition over a trace. -/
def guardPairs (ok : WAct → WAct → Bool) : List WAct → Bool
  | a :: b :: rest => ok a b && guardPairs ok (b :: rest)
  | _ => true

/-- `b` being a `sleep` demands the immediately preceding action be a
`check`. -/
def sleepNeedsCheck (a b : WAct) : Bool :=
  match b with
  | WAct.sleep =>
    match a with
    | WAct.check => true
    | _ => false
  | _ => true

/-- `b` being `work` demands the immediately preceding action be a
`check`. -/
def workNeedsCheck (a b : WAct) : Bool :=
  match b with
  | WAct.work =>
    match a with
    | WAct.check => true
    | _ => false
  | _ => true

/-- `b` being a `sleep` demands the immediately preceding action be the
cycle's `work`. -/
def sleepNeedsWork (a b : WAct) : Bool :=
  match b with
  | WAct.sleep =>
    match a with
    | WAct.work => true
    | _ => false
  | _ => true

/-- Whether every `sleep` in a trace is immediately preceded by a
`check` — the reading of "the stop predicate is sampled before sleeping"
on which a stop set during the cycle's work would skip the sleep. -/
def checkGuardsSleep : List WAct → Bool := guardPairs sleepNeedsCheck

/-- Whether every `work` in a trace is immediately preceded by a
`check`: the predicate is sampled before the cycle's work. -/
def checkGuardsWork : List WAct → Bool := guardPairs workNeedsCheck

/-- Whether every `sleep` is immediately preceded by `work` (no sample
point between the cycle's work and the sleep). -/
def workGuardsSleep : List WAct → Bool := guardPairs sleepNeedsWork

/-- A persisted `samples` row (the key columns and the payload). -/
structure SRow where
  ts : Str
  source : Str
  channel : Str
  value : PyFloat
  extra : Str
deriving DecidableEq

def sameKey (a b : SRow) : Bool :=
  a.ts = b.ts && a.source = b.source && a.channel = b.channel

/-- `_insert_sample` with `use_or_ignore=True`:
`INSERT OR IGNORE INTO samples ...` under the unique index
`uniq_samples_key ON samples(timestamp, source, channel)` — the row is
inserted unless one with the same key exists. -/
def insertOrIgnore (db : List SRow) (r : SRow) : List SRow :=
  if db.any (sameKey r) then db else db ++ [r]

/-- `_insert_sample` with `use_or_ignore=False`:
`INSERT INTO samples ... SELECT ... WHERE NOT EXISTS (SELECT 1 FROM
samples WHERE timestamp = ? AND source = ? AND channel = ?)`. -/
def insertWhereNotExists (db : List SRow) (r : SRow) : List SRow :=
  if db.any (sameKey r) then db else db ++ [r]

def insertSample (useOrIgnore : Bool) (db : List SRow) (r : SRow) : List SRow :=
  if useOrIgnore then insertOrIgnore db r else insertWhereNotExists db r

def countKey (db : List SRow) (r : SRow) : Nat :=
  (db.filter (sameKey r)).length

/-- The observable ingest events of `main` in `hermaeus-mora.py`. -/
inductive IEv where
  | ins
  | flush
  | close
deriving DecidableEq

/-- The measurement-consuming loop of `main`: per delivered row, insert
and bump `attempts`; commit when `attempts % commit_every == 0` or when
`commit_seconds` have elapsed since `last_commit` (which is then set to
the current time). `ts` lists the wall-clock time observed at each row. -/
def ingestLoop (N : Nat) (T : ℚ) : Nat → ℚ → List ℚ → List IEv
  | _, _, [] => []
  | attempts, lastC, t :: rest =>
    let a := attempts + 1
    if a % N = 0 ∨ T ≤ t - lastC then
      IEv.ins :: IEv.flush :: ingestLoop N T a t rest
    else
      IEv.ins :: ingestLoop N T a lastC rest

/-- The whole run: the loop over however many rows are delivered before
the stream ends or a stop is observed, then the `finally:` block —
`db.commit(); db.close()`. -/
def ingestRun (N : Nat) (T : ℚ) (t0 : ℚ) (ts : List ℚ) : List IEv :=
  ingestLoop N T 0 t0 ts ++ [IEv.flush, IEv.close]

/-- The time of the last commit before the k-th delivered row, per the
commit policy (starts at loop entry time `t0`). -/
def lastFlushFrom (N : Nat) (T : ℚ) : Nat → ℚ → List ℚ → Nat → ℚ
  | _, lastC, _, 0 => lastC
  | _, lastC, [], _ + 1 => lastC
  | a, lastC, t :: rest, k + 1 =>
    lastFlushFrom N T (a + 1)
      (if (a + 1) % N = 0 ∨ T ≤ t - lastC then t else lastC) rest k

/-- The measurements that a list of completed raw lines produces under
fixed bindings: each line is terminator-stripped, CSV-parsed and fed to
`rowMeas`. -/
def msOfLines (source : Str) (channels : List Str) (cols : List Nat)
    (extra : Str) (lines : List Str) : List Meas :=
  lines.flatMap fun l => rowMeas source channels cols extra (csvRow (rstripRN l))

/-- The binding-shape condition of claim C10: name list and column list
of equal length, columns strictly increasing and all at least 2. -/
def bindingsWF (st : FileState) : Prop :=
  st.channels.length = st.channel_cols.length ∧
    st.channel_cols.Chain' (· < ·) ∧ ∀ i ∈ st.channel_cols, 2 ≤ i

/-- Modelled from the spec: header-detection strategy (1), "the first
cell equals the fixed header-leader literal". The source defines
`HEADER_LEADER` but never consults it; this predicate exists only to
state that divergence. -/
def specStratOne (row : List Str) : Bool :=
  decide (row.getD 0 [] = HEADER_LEADER)

/-- The column indices a header row ought to bind per the spec's words:
the indices from 2 on whose stripped cell is non-blank. -/
def specBindCols (row : List Str) : List Nat :=
  (List.range' 2 (row.length - 2)).filter fun i => decide (pyStrip (row.getD i []) ≠ [])

/-- The channel names bound at those columns (stripped cells). -/
def specBindNames (row : List Str) : List Str :=
  (specBindCols row).map fun i => pyStrip (row.getD i [])

/-- Concrete scenario: a fresh backfilling tracker. -/
def cexInit : FileState := initState (str "log") (str "iso") true

/-- A poll that sees only a strict first part of the header line. -/
def cexHeadFrag : Str := str "T,Scan Number,ChA"

/-- The whole file: the full header line and one data row. -/
def cexFull : Str := str "T,Scan Number,ChA,ChB\n1,1,5.0,6.0\n"

/-- The measurements of the two-poll (chunked) delivery of `cexFull`. -/
def cexChunked : List Meas :=
  (read_new_measurements cexHeadFrag cexInit).2 ++
    (read_new_measurements cexFull (read_new_measurements cexHeadFrag cexInit).1).2

/-- The measurements of the single poll that sees `cexFull` at once. -/
def cexOneShot : List Meas := (read_new_measurements cexFull cexInit).2

/-- A tracker in the tailing state with one bound channel. -/
def cexTailSt : FileState := ⟨str "log", str "iso", true, true, [str "C"], [2], 0, []⟩

/-- A file holding a complete header line. -/
def cexHdrContent : Str := str "h,Scan Number,A\n"

/-- The tracker after recognising that header. -/
def cexBound : FileState := (read_new_measurements cexHdrContent cexInit).1

/-- `cexBound` after a poll that observes the file truncated to empty. -/
def cexTrunc : FileState := (read_new_measurements [] cexBound).1

/-- A line whose first cell is exactly `HEADER_LEADER` but whose second
cell is not the row-marker label. -/
def cexLeaderLine : Str := str "Scan Sweep Time (Sec),foo,Ch"

/-- A file with a header and a data row whose bound cell reads `inf`. -/
def cexInfContent : Str := str "h,Scan Number,A\n1,1,inf\n"

/-! ### Helper lemmas about line splitting -/

theorem consLine_ne_nil (c : Char) (ls : List Str) : consLine c ls ≠ [] := by
  cases ls <;> simp [consLine]

theorem consLine_flatten (c : Char) (ls : List Str) :
    (consLine c ls).flatten = c :: ls.flatten := by
  cases ls <;> simp [consLine]

theorem consLine_append (c : Char) {X : List Str} (h : X ≠ []) (Y : List Str) :
    consLine c (X ++ Y) = consLine c X ++ Y := by
  cases X with
  | nil => exact absurd rfl h
  | cons l ls => simp [consLine]

theorem splitK_cons_lf (r : Str) : splitK ('\n' :: r) = ['\n'] :: splitK r := by
  cases r with
  | nil => rfl
  | cons d r2 => simp [splitK, isTermC]

theorem splitK_cons_crlf (r : Str) : splitK ('\r' :: '\n' :: r) = ['\r', '\n'] :: splitK r := by
  simp [splitK]

theorem splitK_cons_cr (r : Str) (h : r.head? ≠ some '\n') :
    splitK ('\r' :: r) = ['\r'] :: splitK r := by
  match r, h with
  | [], _ => rfl
  | a :: r2, h =>
    have ha : a ≠ '\n' := by
      intro e
      exact h (by simp [e])
    simp [splitK, ha, isTermC]

theorem splitK_cons_term (c : Char) (r : Str) (ht : isTermC c = true) (hcr : c ≠ '\r') :
    splitK (c :: r) = [c] :: splitK r := by
  cases r with
  | nil => rfl
  | cons d r2 => simp [splitK, hcr, ht]

theorem splitK_cons_other (c : Char) (r : Str) (hn : isTermC c = false) :
    splitK (c :: r) = consLine c (splitK r) := by
  have hcr : c ≠ '\r' := by
    intro e
    rw [e] at hn
    exact absurd hn (by decide)
  cases r with
  | nil => rfl
  | cons d r2 => simp [splitK, hcr, hn, consLine]

theorem head?_ne_lf {r : Str} (h : ∀ r1 : Str, r = '\n' :: r1 → False) :
    r.head? ≠ some '\n' := by
  cases r with
  | nil => simp
  | cons a r2 =>
    simp only [List.head?_cons, ne_eq, Option.some.injEq]
    intro e
    exact h r2 (by rw [e])

theorem splitK_cons_term₂ (c d : Char) (r : Str) (ht : isTermC c = true)
    (hne : ¬(c = '\r' ∧ d = '\n')) :
    splitK (c :: d :: r) = [c] :: splitK (d :: r) := by
  by_cases hcr : c = '\r'
  · subst hcr
    have hd : d ≠ '\n' := fun e => hne ⟨rfl, e⟩
    exact splitK_cons_cr (d :: r) (by simp [hd])
  · exact splitK_cons_term c (d :: r) ht hcr

theorem splitNL_cons_lf (r : Str) : splitNL ('\n' :: r) = ['\n'] :: splitNL r := rfl

theorem splitNL_cons_other (c : Char) (r : Str) (hn : c ≠ '\n') :
    splitNL (c :: r) = consLine c (splitNL r) := by
  simp [splitNL, hn]

theorem splitK_ne_nil {s : Str} (h : s ≠ []) : splitK s ≠ [] := by
  induction s using splitK.induct with
  | case1 => exact absurd rfl h
  | case2 c => simp [splitK]
  | case3 c d r hc _ =>
    simp only [Bool.and_eq_true, decide_eq_true_eq] at hc
    rw [hc.1, hc.2, splitK_cons_crlf]
    simp
  | case4 c d r hne ht _ =>
    rw [splitK_cons_term₂ c d r ht (by simpa using hne)]
    simp
  | case5 c d r hne hnt _ =>
    rw [splitK_cons_other c (d :: r) (by simpa using hnt)]
    exact consLine_ne_nil c _

theorem splitNL_ne_nil {s : Str} (h : s ≠ []) : splitNL s ≠ [] := by
  cases s with
  | nil => exact absurd rfl h
  | cons c r =>
    by_cases hc : c = '\n'
    · subst hc; simp [splitNL_cons_lf]
    · rw [splitNL_cons_other c r hc]; exact consLine_ne_nil c _

theorem splitK_flatten (s : Str) : (splitK s).flatten = s := by
  induction s using splitK.induct with
  | case1 => rfl
  | case2 c => simp [splitK]
  | case3 c d r hc ih =>
    simp only [Bool.and_eq_true, decide_eq_true_eq] at hc
    rw [hc.1, hc.2, splitK_cons_crlf]
    simp [ih]
  | case4 c d r hne ht ih =>
    rw [splitK_cons_term₂ c d r ht (by simpa using hne)]
    simp [ih]
  | case5 c d r hne hnt ih =>
    rw [splitK_cons_other c (d :: r) (by simpa using hnt), consLine_flatten, ih]

theorem splitNL_flatten (s : Str) : (splitNL s).flatten = s := by
  induction s with
  | nil => rfl
  | cons c r ih =>
    by_cases hc : c = '\n'
    · subst hc; simp [splitNL_cons_lf, ih]
    · rw [splitNL_cons_other c r hc, consLine_flatten, ih]

theorem totalLen_eq_flatten (ls : List Str) : totalLen ls = ls.flatten.length := by
  simp [totalLen, List.length_flatten]

theorem totalLen_splitNL (s : Str) : totalLen (splitNL s) = s.length := by
  rw [totalLen_eq_flatten, splitNL_flatten]

theorem totalLen_append (a b : List Str) : totalLen (a ++ b) = totalLen a + totalLen b := by
  simp [totalLen]

/-! ### Helper lemmas about terminator-free strings -/

theorem noTermB_append (a b : Str) : noTermB (a ++ b) = (noTermB a && noTermB b) := by
  simp [noTermB]

theorem splitK_of_noTerm {s : Str} (h : noTermB s = true) (hne : s ≠ []) :
    splitK s = [s] := by
  induction s with
  | nil => exact absurd rfl hne
  | cons c r ih =>
    have hc : isTermC c = false := by
      simp only [noTermB, List.all_cons, Bool.and_eq_true, Bool.not_eq_true'] at h
      exact h.1
    have hr : noTermB r = true := by
      simp only [noTermB, List.all_cons, Bool.and_eq_true] at h
      exact h.2
    rw [splitK_cons_other c r hc]
    cases hre : r with
    | nil => simp [splitK, consLine]
    | cons a r2 =>
      rw [← hre, ih hr (by simp [hre])]
      simp [consLine]

theorem splitNL_of_noTerm {s : Str} (h : noTermB s = true) (hne : s ≠ []) :
    splitNL s = [s] := by
  induction s with
  | nil => exact absurd rfl hne
  | cons c r ih =>
    have hc : ¬ isTermC c = true := by
      intro hc
      simp only [noTermB, List.all_cons, Bool.and_eq_true, Bool.not_eq_true'] at h
      simp [h.1] at hc
    have hr : noTermB r = true := by
      simp only [noTermB, List.all_cons, Bool.and_eq_true] at h
      exact h.2
    have hn : c ≠ '\n' := by intro e; simp [isTermC, e] at hc
    rw [splitNL_cons_other c r hn]
    cases hre : r with
    | nil => simp [splitNL, consLine]
    | cons a r2 =>
      rw [← hre, ih hr (by simp [hre])]
      simp [consLine]

theorem takeWhile_append_all {α : Type} (p : α → Bool) {l1 : List α}
    (h : ∀ a ∈ l1, p a = true) (l2 : List α) :
    (l1 ++ l2).takeWhile p = l1 ++ l2.takeWhile p := by
  induction l1 with
  | nil => simp
  | cons a l ih =>
    have ha : p a = true := h a (by simp)
    simp only [List.cons_append, List.takeWhile_cons, ha, if_true]
    rw [ih fun b hb => h b (by simp [hb])]

theorem dropWhile_append_all {α : Type} (p : α → Bool) {l1 : List α}
    (h : ∀ a ∈ l1, p a = true) (l2 : List α) :
    (l1 ++ l2).dropWhile p = l2.dropWhile p := by
  induction l1 with
  | nil => simp
  | cons a l ih =>
    have ha : p a = true := h a (by simp)
    simp only [List.cons_append, List.dropWhile_cons, ha, if_true]
    exact ih fun b hb => h b (by simp [hb])

theorem takeWhile_append_stop {α : Type} (p : α → Bool) {l1 : List α}
    (h : l1.dropWhile p ≠ []) (l2 : List α) :
    (l1 ++ l2).takeWhile p = l1.takeWhile p ∧
      (l1 ++ l2).dropWhile p = l1.dropWhile p ++ l2 := by
  induction l1 with
  | nil => exact absurd rfl h
  | cons a l ih =>
    by_cases ha : p a = true
    · simp only [List.dropWhile_cons, ha, if_true] at h
      have := ih h
      simp only [List.cons_append, List.takeWhile_cons, List.dropWhile_cons, ha, if_true]
      exact ⟨by rw [this.1], this.2⟩
    · simp only [Bool.not_eq_true] at ha
      simp [List.takeWhile_cons, List.dropWhile_cons, ha]

theorem dropWhile_ne_nil_of_mem {α : Type} {p : α → Bool} {l : List α} {x : α}
    (hx : x ∈ l) (hpx : p x = false) : l.dropWhile p ≠ [] := by
  induction l with
  | nil => simp at hx
  | cons a t ih =>
    by_cases ha : p a = true
    · simp only [List.dropWhile_cons, ha, if_true]
      rcases List.mem_cons.1 hx with h | h
      · subst h; simp [hpx] at ha
      · exact ih h
    · simp only [Bool.not_eq_true] at ha
      simp [List.dropWhile_cons, ha]

theorem termPart_append_fragPart (s : Str) : termPart s ++ fragPart s = s := by
  have h := List.takeWhile_append_dropWhile (p := fun c => !isTermC c) (l := s.reverse)
  have h2 := congrArg List.reverse h
  rw [List.reverse_append, List.reverse_reverse] at h2
  exact h2

theorem fragPart_noTerm (s : Str) : noTermB (fragPart s) = true := by
  rw [noTermB, List.all_eq_true]
  intro c hc
  rw [fragPart, List.mem_reverse] at hc
  simpa using List.mem_takeWhile_imp hc

theorem fragPart_of_noTerm {s : Str} (h : noTermB s = true) : fragPart s = s := by
  rw [noTermB, List.all_eq_true] at h
  rw [fragPart, List.takeWhile_eq_self_iff.2 (fun c hc => h c (List.mem_reverse.1 hc)),
    List.reverse_reverse]

theorem termPart_of_noTerm {s : Str} (h : noTermB s = true) : termPart s = [] := by
  rw [noTermB, List.all_eq_true] at h
  rw [termPart, List.dropWhile_eq_nil_iff.2 (fun c hc => h c (List.mem_reverse.1 hc)),
    List.reverse_nil]

theorem fragPart_append_noTerm {e : Str} (he : noTermB e = true) (d : Str) :
    fragPart (d ++ e) = fragPart d ++ e ∧ termPart (d ++ e) = termPart d := by
  rw [noTermB, List.all_eq_true] at he
  have hall : ∀ c ∈ e.reverse, (fun c => !isTermC c) c = true :=
    fun c hc => he c (List.mem_reverse.1 hc)
  constructor
  · rw [fragPart, List.reverse_append, takeWhile_append_all _ hall, List.reverse_append,
      List.reverse_reverse]
    rfl
  · rw [termPart, List.reverse_append, dropWhile_append_all _ hall]
    rfl

theorem fragPart_append_hasTerm {e : Str} (he : hasTermB e = true) (d : Str) :
    fragPart (d ++ e) = fragPart e ∧ termPart (d ++ e) = d ++ termPart e := by
  rw [hasTermB, List.any_eq_true] at he
  obtain ⟨x, hx, hpx⟩ := he
  have hdw : e.reverse.dropWhile (fun c => !isTermC c) ≠ [] :=
    dropWhile_ne_nil_of_mem (List.mem_reverse.2 hx) (by simp [hpx])
  have h := takeWhile_append_stop (fun c => !isTermC c) hdw d.reverse
  constructor
  · rw [fragPart, List.reverse_append, h.1]; rfl
  · rw [termPart, List.reverse_append, h.2, List.reverse_append, List.reverse_reverse]
    rfl

theorem hasTermB_eq_not_noTermB (s : Str) : hasTermB s = !noTermB s := by
  induction s with
  | nil => rfl
  | cons c r ih =>
    simp only [hasTermB, noTermB, List.any_cons, List.all_cons] at *
    cases h : isTermC c <;> simp [h, ih]

/-! ### endsTermB and the decomposition of splitTail -/

theorem endsTermB_eq_fragPart_nil {s : Str} (hne : s ≠ []) :
    endsTermB s = true ↔ fragPart s = [] := by
  have hrev : s.reverse ≠ [] := by simp [hne]
  cases hr : s.reverse with
  | nil => exact absurd hr hrev
  | cons c t =>
    have hlast : s.getLast? = some c := by
      rw [← List.head?_reverse, hr, List.head?_cons]
    have hends : endsTermB s = isTermC c := by rw [endsTermB, hlast]
    constructor
    · intro h
      rw [hends] at h
      rw [fragPart, hr, List.takeWhile_cons]
      simp [h]
    · intro h
      rw [fragPart, hr, List.takeWhile_cons] at h
      rw [hends]
      by_cases hc : isTermC c = true
      · exact hc
      · simp only [Bool.not_eq_true] at hc
        simp [hc] at h

theorem noTerm_not_endsTerm {s : Str} (h : noTermB s = true) : endsTermB s = false := by
  cases hr : s.getLast? with
  | none => rw [endsTermB, hr]
  | some c =>
    have hc : c ∈ s := List.mem_of_mem_getLast? hr
    rw [noTermB, List.all_eq_true] at h
    have := h c hc
    rw [endsTermB, hr]
    simpa using this

theorem endsTermB_cons {c : Char} {r : Str} (h : r ≠ []) :
    endsTermB (c :: r) = endsTermB r := by
  rw [endsTermB, endsTermB, List.getLast?_cons, List.getLast?_eq_getLast _ h]
  simp

theorem termPart_endsTerm {s : Str} (h : termPart s ≠ []) : endsTermB (termPart s) = true := by
  have hdw : s.reverse.dropWhile (fun c => !isTermC c) ≠ [] := by
    intro he
    rw [termPart, he] at h
    exact h rfl
  have hhead := List.head_dropWhile_not (fun c => !isTermC c) s.reverse hdw
  rw [endsTermB, ← List.head?_reverse, termPart, List.reverse_reverse]
  rw [List.head?_eq_head hdw]
  simpa using hhead

theorem head_ne_lf_of_noTerm {f : Str} (hf : noTermB f = true) :
    f.head? ≠ some '\n' := by
  cases f with
  | nil => simp
  | cons c r =>
    simp only [List.head?_cons, ne_eq, Option.some.injEq]
    intro e
    rw [noTermB, List.all_eq_true] at hf
    have := hf c (by simp)
    rw [e] at this
    simp [isTermC] at this

theorem modLast_cons (g : Str → Str) (l : Str) {ls : List Str} (h : ls ≠ []) :
    modLast g (l :: ls) = l :: modLast g ls := by
  cases ls with
  | nil => exact absurd rfl h
  | cons a t => rfl

theorem getLast?_cons_of_ne_nil {c : Char} {r : Str} (h : r ≠ []) :
    (c :: r).getLast? = r.getLast? := by
  rw [List.getLast?_cons, List.getLast?_eq_getLast _ h]
  simp

/-- Appending to a terminator-ended string splits cleanly, provided the
boundary does not join a `'\r'` to a following `'\n'`. -/
theorem splitK_append {a : Str} (ha : endsTermB a = true)
    {b : Str} (hb : ¬(a.getLast? = some '\r' ∧ b.head? = some '\n')) :
    splitK (a ++ b) = splitK a ++ splitK b := by
  induction a using splitK.induct with
  | case1 => rw [endsTermB] at ha; simp at ha
  | case2 c =>
    have hc : isTermC c = true := by
      rw [endsTermB] at ha
      simpa using ha
    by_cases hcr : c = '\r'
    · subst hcr
      have hbh : b.head? ≠ some '\n' := fun hh => hb ⟨by simp, hh⟩
      rw [List.singleton_append, splitK_cons_cr b hbh]
      rfl
    · rw [List.singleton_append, splitK_cons_term c b hc hcr]
      rfl
  | case3 c d r hc ih =>
    simp only [Bool.and_eq_true, decide_eq_true_eq] at hc
    obtain ⟨hc1, hc2⟩ := hc
    subst hc1
    subst hc2
    cases hre : r with
    | nil =>
      subst hre
      rw [show ((['\r', '\n'] : Str) ++ b) = '\r' :: '\n' :: b from rfl, splitK_cons_crlf]
      rfl
    | cons x r2 =>
      rw [← hre]
      have hrne : r ≠ [] := by simp [hre]
      have hrne2 : ('\n' :: r) ≠ [] := by simp
      have ha2 : endsTermB r = true := by
        rw [← endsTermB_cons (c := '\n') hrne, ← endsTermB_cons (c := '\r') hrne2]
        exact ha
      have hb2 : ¬(r.getLast? = some '\r' ∧ b.head? = some '\n') := by
        rw [← getLast?_cons_of_ne_nil (c := '\n') hrne,
          ← getLast?_cons_of_ne_nil (c := '\r') hrne2]
        exact hb
      show splitK ('\r' :: '\n' :: (r ++ b)) = _
      rw [splitK_cons_crlf, splitK_cons_crlf, ih ha2 hb2]
      rfl
  | case4 c d r hne ht ih =>
    have hne2 : ¬(c = '\r' ∧ d = '\n') := by simpa using hne
    have hdr : (d :: r) ≠ [] := by simp
    have ha2 : endsTermB (d :: r) = true := by
      rw [← endsTermB_cons (c := c) hdr]
      exact ha
    have hb2 : ¬((d :: r).getLast? = some '\r' ∧ b.head? = some '\n') := by
      rw [← getLast?_cons_of_ne_nil (c := c) hdr]
      exact hb
    show splitK (c :: d :: (r ++ b)) = _
    rw [splitK_cons_term₂ c d (r ++ b) ht hne2,
      show (d :: (r ++ b)) = ((d :: r) ++ b) from rfl, ih ha2 hb2,
      splitK_cons_term₂ c d r ht hne2]
    rfl
  | case5 c d r hne hnt ih =>
    have hn : isTermC c = false := by simpa using hnt
    have hdr : (d :: r) ≠ [] := by simp
    have ha2 : endsTermB (d :: r) = true := by
      rw [← endsTermB_cons (c := c) hdr]
      exact ha
    have hb2 : ¬((d :: r).getLast? = some '\r' ∧ b.head? = some '\n') := by
      rw [← getLast?_cons_of_ne_nil (c := c) hdr]
      exact hb
    show splitK (c :: ((d :: r) ++ b)) = _
    rw [splitK_cons_other c _ hn, splitK_cons_other c _ hn, ih ha2 hb2,
      consLine_append c (splitK_ne_nil hdr)]

theorem consLine_modLast_lf (c : Char) {X : List Str} (h : X ≠ []) (Y : List Str) :
    consLine c (modLast (fun l => l ++ ['\n']) X ++ Y) =
      modLast (fun l => l ++ ['\n']) (consLine c X) ++ Y := by
  cases X with
  | nil => exact absurd rfl h
  | cons l ls =>
    cases ls with
    | nil => rfl
    | cons a t =>
      have h1 : modLast (fun l => l ++ ['\n']) (l :: a :: t) =
          l :: modLast (fun l => l ++ ['\n']) (a :: t) := modLast_cons _ _ (by simp)
      have h2 : modLast (fun l => l ++ ['\n']) ((c :: l) :: a :: t) =
          (c :: l) :: modLast (fun l => l ++ ['\n']) (a :: t) := modLast_cons _ _ (by simp)
      rw [h1]
      show (c :: l) :: (modLast (fun l => l ++ ['\n']) (a :: t) ++ Y) =
        modLast (fun l => l ++ ['\n']) ((c :: l) :: a :: t) ++ Y
      rw [h2]
      rfl

/-- Appending `'\n' :: b` to a string that ends in `'\r'` merges the
`"\r\n"` into the last line. -/
theorem splitK_append_crlf {a : Str} (ha : a.getLast? = some '\r') (b : Str) :
    splitK (a ++ '\n' :: b) = modLast (fun l => l ++ ['\n']) (splitK a) ++ splitK b := by
  induction a using splitK.induct with
  | case1 => simp at ha
  | case2 c =>
    have hc : c = '\r' := by simpa using ha
    subst hc
    rw [List.singleton_append, splitK_cons_crlf]
    rfl
  | case3 c d r hc ih =>
    simp only [Bool.and_eq_true, decide_eq_true_eq] at hc
    obtain ⟨hc1, hc2⟩ := hc
    subst hc1
    subst hc2
    cases hre : r with
    | nil => subst hre; simp at ha
    | cons x r2 =>
      rw [← hre]
      have hrne : r ≠ [] := by simp [hre]
      have hrne2 : ('\n' :: r) ≠ [] := by simp
      have ha2 : r.getLast? = some '\r' := by
        rw [← getLast?_cons_of_ne_nil (c := '\n') hrne,
          ← getLast?_cons_of_ne_nil (c := '\r') hrne2]
        exact ha
      show splitK ('\r' :: '\n' :: (r ++ '\n' :: b)) = _
      rw [splitK_cons_crlf, splitK_cons_crlf, ih ha2,
        modLast_cons _ _ (splitK_ne_nil hrne)]
      rfl
  | case4 c d r hne ht ih =>
    have hne2 : ¬(c = '\r' ∧ d = '\n') := by simpa using hne
    have hdr : (d :: r) ≠ [] := by simp
    have ha2 : (d :: r).getLast? = some '\r' := by
      rw [← getLast?_cons_of_ne_nil (c := c) hdr]
      exact ha
    show splitK (c :: d :: (r ++ '\n' :: b)) = _
    rw [splitK_cons_term₂ c d (r ++ '\n' :: b) ht hne2,
      show (d :: (r ++ '\n' :: b)) = ((d :: r) ++ '\n' :: b) from rfl, ih ha2,
      splitK_cons_term₂ c d r ht hne2, modLast_cons _ _ (splitK_ne_nil hdr)]
    rfl
  | case5 c d r hne hnt ih =>
    have hn : isTermC c = false := by simpa using hnt
    have hdr : (d :: r) ≠ [] := by simp
    have ha2 : (d :: r).getLast? = some '\r' := by
      rw [← getLast?_cons_of_ne_nil (c := c) hdr]
      exact ha
    show splitK (c :: ((d :: r) ++ '\n' :: b)) = _
    rw [splitK_cons_other c _ hn, splitK_cons_other c _ hn, ih ha2,
      consLine_modLast_lf c (splitK_ne_nil hdr)]

/-- Every line produced by `splitK` is nonempty. -/
theorem splitK_mem_ne_nil : ∀ {s l : Str}, l ∈ splitK s → l ≠ [] := by
  intro s
  induction s using splitK.induct with
  | case1 => intro l h; simp [splitK] at h
  | case2 c =>
    intro l h
    have h2 : l = [c] := by simpa [splitK] using h
    rw [h2]
    simp
  | case3 c d r hc ih =>
    intro l hm
    simp only [Bool.and_eq_true, decide_eq_true_eq] at hc
    obtain ⟨hc1, hc2⟩ := hc
    subst hc1
    subst hc2
    rw [splitK_cons_crlf] at hm
    rcases List.mem_cons.1 hm with h | h
    · subst h; simp
    · exact ih h
  | case4 c d r hne ht ih =>
    intro l hm
    rw [splitK_cons_term₂ c d r ht (by simpa using hne)] at hm
    rcases List.mem_cons.1 hm with h | h
    · subst h; simp
    · exact ih h
  | case5 c d r hne hnt ih =>
    intro l hm
    rw [splitK_cons_other c (d :: r) (by simpa using hnt)] at hm
    cases hsp : splitK (d :: r) with
    | nil => exact absurd hsp (splitK_ne_nil (by simp))
    | cons l0 ls =>
      rw [hsp] at hm
      simp only [consLine] at hm
      rcases List.mem_cons.1 hm with h | h
      · simp [h]
      · exact ih (by rw [hsp]; exact List.mem_cons_of_mem _ h)

/-- When the data ends in a split boundary, every `splitK` line ends in
a split boundary. -/
theorem splitK_lines_endTerm : ∀ {d : Str}, endsTermB d = true → ∀ l ∈ splitK d, endsTermB l = true := by
  intro d
  induction d using splitK.induct with
  | case1 => intro h; simp [endsTermB] at h
  | case2 c =>
    intro h l hm
    have h2 : l = [c] := by simpa [splitK] using hm
    rw [h2]
    exact h
  | case3 c d r hc ih =>
    intro h l hm
    simp only [Bool.and_eq_true, decide_eq_true_eq] at hc
    obtain ⟨hc1, hc2⟩ := hc
    subst hc1
    subst hc2
    rw [splitK_cons_crlf] at hm
    rcases List.mem_cons.1 hm with hl | hl
    · subst hl; decide
    · cases hre : r with
      | nil => subst hre; simp [splitK] at hl
      | cons x r2 =>
        have hrne : r ≠ [] := by simp [hre]
        have hrne2 : ('\n' :: r) ≠ [] := by simp
        exact ih (by
          rw [← endsTermB_cons (c := '\n') hrne, ← endsTermB_cons (c := '\x0d') hrne2]
          exact h) l hl
  | case4 c d r hne ht ih =>
    intro h l hm
    rw [splitK_cons_term₂ c d r ht (by simpa using hne)] at hm
    have hdr : (d :: r) ≠ [] := by simp
    rcases List.mem_cons.1 hm with hl | hl
    · subst hl
      show endsTermB [c] = true
      rw [endsTermB]
      simpa using ht
    · exact ih (by rw [← endsTermB_cons (c := c) hdr]; exact h) l hl
  | case5 c d r hne hnt ih =>
    intro h l hm
    rw [splitK_cons_other c (d :: r) (by simpa using hnt)] at hm
    have hdr : (d :: r) ≠ [] := by simp
    have hterm : endsTermB (d :: r) = true := by
      rw [← endsTermB_cons (c := c) hdr]
      exact h
    cases hsp : splitK (d :: r) with
    | nil => exact absurd hsp (splitK_ne_nil hdr)
    | cons l0 ls =>
      rw [hsp] at hm
      simp only [consLine] at hm
      rcases List.mem_cons.1 hm with hl | hl
      · subst hl
        have hl0 : endsTermB l0 = true := ih hterm l0 (by rw [hsp]; simp)
        have hl0ne : l0 ≠ [] := splitK_mem_ne_nil (l := l0) (by rw [hsp]; simp)
        rw [endsTermB_cons hl0ne]
        exact hl0
      · exact ih hterm l (by rw [hsp]; exact List.mem_cons_of_mem _ hl)

/-! ### The withhold decomposition of splitTail -/

theorem isRNC_isTermC {c : Char} (h : isRNC c = true) : isTermC c = true := by
  have h2 : c = '\n' ∨ c = '\r' := by simpa [isRNC] using h
  rcases h2 with h2 | h2 <;> subst h2 <;> decide

theorem noTerm_not_endsRN {s : Str} (h : noTermB s = true) : endsRNB s = false := by
  cases hr : s.getLast? with
  | none => rw [endsRNB, hr]
  | some c =>
    have hc : c ∈ s := List.mem_of_mem_getLast? hr
    rw [noTermB, List.all_eq_true] at h
    have h2 := h c hc
    rw [endsRNB, hr]
    show isRNC c = false
    cases hrn : isRNC c
    · rfl
    · exact absurd (isRNC_isTermC hrn) (by simpa using h2)

theorem endsRNB_concat (a : Str) (c : Char) : endsRNB (a ++ [c]) = isRNC c := by
  rw [endsRNB, List.getLast?_concat]

/-- `getLast?` of a cons with a nonempty tail, for lists of lines. -/
theorem getLast?_cons_ne_nil {α : Type} {a : α} {l : List α} (h : l ≠ []) :
    (a :: l).getLast? = l.getLast? := by
  rw [List.getLast?_cons, List.getLast?_eq_getLast _ h]
  simp

/-- The last `splitK` line ends with the data's last character. -/
theorem splitK_last_ends : ∀ {d : Str}, d ≠ [] →
    ∀ {l : Str}, (splitK d).getLast? = some l → l.getLast? = d.getLast? := by
  intro d
  induction d using splitK.induct with
  | case1 => intro h; exact absurd rfl h
  | case2 c =>
    intro _ l hl
    have h2 : [c] = l := by simpa [splitK] using hl
    rw [← h2]
  | case3 c d r hc ih =>
    intro _ l hl
    simp only [Bool.and_eq_true, decide_eq_true_eq] at hc
    obtain ⟨hc1, hc2⟩ := hc
    subst hc1
    subst hc2
    rw [splitK_cons_crlf] at hl
    rcases r with _ | ⟨x, r2⟩
    · have h2 : (['\r', '\n'] : Str) = l := by simpa [splitK] using hl
      rw [← h2]
    · have hrne : (x :: r2) ≠ [] := by simp
      have hrne2 : ('\n' :: x :: r2) ≠ [] := by simp
      rw [getLast?_cons_ne_nil (splitK_ne_nil hrne)] at hl
      rw [ih hrne hl, getLast?_cons_of_ne_nil (c := '\x0d') hrne2,
        getLast?_cons_of_ne_nil (c := '\n') hrne]
  | case4 c d r hne ht ih =>
    intro _ l hl
    rw [splitK_cons_term₂ c d r ht (by simpa using hne)] at hl
    have hdr : (d :: r) ≠ [] := by simp
    rw [getLast?_cons_ne_nil (splitK_ne_nil hdr)] at hl
    rw [ih hdr hl, getLast?_cons_of_ne_nil (c := c) hdr]
  | case5 c d r hne hnt ih =>
    intro _ l hl
    rw [splitK_cons_other c (d :: r) (by simpa using hnt)] at hl
    have hdr : (d :: r) ≠ [] := by simp
    cases hsp : splitK (d :: r) with
    | nil => exact absurd hsp (splitK_ne_nil hdr)
    | cons l0 ls =>
      rw [hsp] at hl
      cases hls : ls with
      | nil =>
        subst hls
        have hll : c :: l0 = l := by simpa [consLine] using hl
        have hl0ne : l0 ≠ [] := splitK_mem_ne_nil (l := l0) (by rw [hsp]; simp)
        have hl0 : l0.getLast? = (d :: r).getLast? :=
          ih hdr (by rw [hsp]; rfl)
        rw [← hll, getLast?_cons_of_ne_nil (c := c) hl0ne, hl0,
          getLast?_cons_of_ne_nil (c := c) hdr]
      | cons y ys =>
        subst hls
        have hlsne : (y :: ys) ≠ [] := by simp
        have hl2 : (splitK (d :: r)).getLast? = some l := by
          rw [hsp, getLast?_cons_ne_nil hlsne]
          rw [show (consLine c (l0 :: y :: ys)) = (c :: l0) :: y :: ys from rfl] at hl
          rw [getLast?_cons_ne_nil hlsne] at hl
          exact hl
        rw [ih hdr hl2, getLast?_cons_of_ne_nil (c := c) hdr]

theorem noTerm_of_termPart_nil {d : Str} (h : termPart d = []) : noTermB d = true := by
  have h2 := termPart_append_fragPart d
  rw [h, List.nil_append] at h2
  rw [← h2]
  exact fragPart_noTerm d

/-- A terminator-free prefix plus one final character is a single line. -/
theorem splitK_noTerm_concat {a : Str} (ha : noTermB a = true) (w : Char) :
    splitK (a ++ [w]) = [a ++ [w]] := by
  induction a with
  | nil => rfl
  | cons c r ih =>
    have hc : isTermC c = false := by
      simp only [noTermB, List.all_cons, Bool.and_eq_true, Bool.not_eq_true'] at ha
      exact ha.1
    have hr : noTermB r = true := by
      simp only [noTermB, List.all_cons, Bool.and_eq_true] at ha
      exact ha.2
    rw [List.cons_append, splitK_cons_other c _ hc, ih hr]
    rfl

theorem tailPieces_eq (ls : List Str) :
    tailPieces ls = match ls.getLast? with
      | none => ([], [])
      | some l => if endsRNB l then (ls, []) else (ls.dropLast, l) := rfl

theorem tailPieces_append {B : List Str} (hB : B ≠ []) (A : List Str) :
    tailPieces (A ++ B) = (A ++ (tailPieces B).1, (tailPieces B).2) := by
  obtain ⟨b, hb⟩ : ∃ b, B.getLast? = some b := by
    cases h : B.getLast? with
    | none => exact absurd (List.getLast?_eq_none_iff.1 h) hB
    | some b => exact ⟨b, rfl⟩
  have hab : (A ++ B).getLast? = some b := by
    rw [List.getLast?_append_of_ne_nil _ hB, hb]
  rw [tailPieces_eq, tailPieces_eq, hab, hb]
  show (if endsRNB b then (A ++ B, ([] : Str)) else ((A ++ B).dropLast, b)) =
    (A ++ (if endsRNB b then (B, ([] : Str)) else (B.dropLast, b)).1,
      (if endsRNB b then (B, ([] : Str)) else (B.dropLast, b)).2)
  by_cases he : endsRNB b = true
  · rw [if_pos he, if_pos he]
  · rw [if_neg he, if_neg he, List.dropLast_append_of_ne_nil _ hB]

theorem modLast_eq_dropLast_concat (g : Str → Str) {L : List Str} (h : L ≠ []) :
    modLast g L = L.dropLast ++ [g (L.getLast h)] := by
  induction L with
  | nil => exact absurd rfl h
  | cons l ls ih =>
    cases ls with
    | nil => rfl
    | cons a t =>
      rw [modLast_cons _ _ (by simp), ih (by simp)]
      simp [List.getLast_cons]

/-- Extending every-last-line by `'\n'` leaves nothing withheld. -/
theorem tailPieces_modLast_lf {M : List Str} (hM : M ≠ []) :
    tailPieces (modLast (fun l => l ++ ['\n']) M) =
      (modLast (fun l => l ++ ['\n']) M, []) := by
  have hmod := modLast_eq_dropLast_concat (fun l => l ++ ['\n']) hM
  rw [tailPieces_eq, hmod, List.getLast?_concat]
  show (if endsRNB (M.getLast hM ++ ['\n']) then _ else _) = _
  rw [endsRNB_concat]
  rw [show isRNC '\n' = true from rfl]
  rw [if_pos rfl]

theorem splitTail_nil : splitTail [] = ([], []) := rfl

/-- When the data ends in `'\n'`/`'\r'`, nothing is withheld. -/
theorem splitTail_endsRN {d : Str} (h : endsRNB d = true) :
    splitTail d = (splitK d, []) := by
  have hd : d ≠ [] := by
    intro e
    rw [e] at h
    exact absurd h (by decide)
  obtain ⟨l, hl⟩ : ∃ l, (splitK d).getLast? = some l := by
    cases hx : (splitK d).getLast? with
    | none => exact absurd (List.getLast?_eq_none_iff.1 hx) (splitK_ne_nil hd)
    | some l => exact ⟨l, rfl⟩
  have hll : l.getLast? = d.getLast? := splitK_last_ends hd hl
  have hrn : endsRNB l = true := by
    rw [endsRNB, hll]
    rw [endsRNB] at h
    exact h
  rw [splitTail, tailPieces_eq, hl]
  show (if endsRNB l then (splitK d, ([] : Str)) else ((splitK d).dropLast, l)) = _
  rw [if_pos hrn]

/-- When the data ends in ordinary (non-boundary) characters, the
withheld fragment is exactly the text after the last boundary. -/
theorem splitTail_midFrag {d : Str} (hf : fragPart d ≠ []) :
    splitTail d = (splitK (termPart d), fragPart d) := by
  have hnt : noTermB (fragPart d) = true := fragPart_noTerm d
  by_cases ht : termPart d = []
  · have hdf : d = fragPart d := by
      have h2 := termPart_append_fragPart d
      rw [ht, List.nil_append] at h2
      exact h2.symm
    have hsp : splitK d = [fragPart d] := by
      conv_lhs => rw [hdf]
      exact splitK_of_noTerm hnt hf
    rw [splitTail, tailPieces_eq, hsp, List.getLast?_singleton]
    show (if endsRNB (fragPart d) then ([fragPart d], ([] : Str))
      else (([fragPart d] : List Str).dropLast, fragPart d)) = _
    rw [noTerm_not_endsRN hnt, ht]
    simp [splitK]
  · have hterm2 : endsTermB (termPart d) = true := termPart_endsTerm ht
    have hhead : (fragPart d).head? ≠ some '\n' := head_ne_lf_of_noTerm hnt
    have hsplit : splitK d = splitK (termPart d) ++ [fragPart d] := by
      conv_lhs => rw [← termPart_append_fragPart d]
      rw [splitK_append hterm2 (fun hc => hhead hc.2), splitK_of_noTerm hnt hf]
    rw [splitTail, tailPieces_eq, hsplit, List.getLast?_concat]
    show (if endsRNB (fragPart d) then (splitK (termPart d) ++ [fragPart d], ([] : Str))
      else ((splitK (termPart d) ++ [fragPart d]).dropLast, fragPart d)) = _
    rw [noTerm_not_endsRN hnt]
    simp

/-- When the data ends in a wide boundary that is not `'\n'`/`'\r'`
(e.g. `"\v"`), the whole last line — complete per `splitlines` — is
nevertheless withheld by the narrow `endswith` test. -/
theorem splitTail_concat_wide {d : Str} {w : Char} (_hw : isTermC w = true)
    (hwn : isRNC w = false) :
    splitTail (d ++ [w]) = (splitK (termPart d), fragPart d ++ [w]) := by
  have hwn2 : w ≠ '\n' := by
    intro e
    rw [e] at hwn
    exact absurd hwn (by decide)
  by_cases ht : termPart d = []
  · have hnd : noTermB d = true := noTerm_of_termPart_nil ht
    have hsp : splitK (d ++ [w]) = [d ++ [w]] := splitK_noTerm_concat hnd w
    rw [splitTail, tailPieces_eq, hsp, List.getLast?_singleton]
    show (if endsRNB (d ++ [w]) then ([d ++ [w]], ([] : Str))
      else (([d ++ [w]] : List Str).dropLast, d ++ [w])) = _
    rw [endsRNB_concat, hwn, ht, fragPart_of_noTerm hnd]
    simp [splitK]
  · have hterm2 : endsTermB (termPart d) = true := termPart_endsTerm ht
    have hnt : noTermB (fragPart d) = true := fragPart_noTerm d
    have hhd : (fragPart d ++ [w]).head? ≠ some '\n' := by
      cases hfp : fragPart d with
      | nil =>
        simp only [hfp, List.nil_append, List.head?_cons, ne_eq, Option.some.injEq]
        exact hwn2
      | cons a t =>
        have hhd0 : (fragPart d).head? ≠ some '\n' := head_ne_lf_of_noTerm hnt
        rw [hfp] at hhd0
        simpa using hhd0
    have hsplit : splitK (d ++ [w]) = splitK (termPart d) ++ [fragPart d ++ [w]] := by
      conv_lhs => rw [show d ++ [w] = termPart d ++ (fragPart d ++ [w]) from by
        rw [← List.append_assoc, termPart_append_fragPart]]
      rw [splitK_append hterm2 (fun hc => hhd hc.2), splitK_noTerm_concat hnt w]
    rw [splitTail, tailPieces_eq, hsplit, List.getLast?_concat]
    show (if endsRNB (fragPart d ++ [w])
      then (splitK (termPart d) ++ [fragPart d ++ [w]], ([] : Str))
      else ((splitK (termPart d) ++ [fragPart d ++ [w]]).dropLast, fragPart d ++ [w])) = _
    rw [endsRNB_concat, hwn]
    simp

/-- Appending a terminator-free fragment: the completed lines are those
of the data before the fragment, and the fragment joins the withheld
tail. -/
theorem splitTail_append_frag {f : Str} (hf : noTermB f = true) (hfne : f ≠ [])
    (X : Str) : splitTail (X ++ f) = (splitK (termPart X), fragPart X ++ f) := by
  have h1 := fragPart_append_noTerm hf X
  have hfr : fragPart (X ++ f) ≠ [] := by
    rw [h1.1]
    simp [hfne]
  rw [splitTail_midFrag hfr, h1.1, h1.2]

/-- Shifting a terminator-ended prefix out of the withhold split. -/
theorem splitTail_shift {T : Str} (hT : endsTermB T = true) {b : Str} (hb : b ≠ [])
    (hside : ¬(T.getLast? = some '\r' ∧ b.head? = some '\n')) :
    splitTail (T ++ b) = (splitK T ++ (splitTail b).1, (splitTail b).2) := by
  rw [splitTail, splitK_append hT hside, tailPieces_append (splitK_ne_nil hb) (splitK T)]
  rfl

/-! ### Measurement-level composition of the bulk reader -/

theorem rstripRN_append_lf (l : Str) : rstripRN (l ++ ['\n']) = rstripRN l := by
  rw [rstripRN, rstripRN, List.reverse_append]
  simp [List.dropWhile_cons, isRNC]

theorem msOfLines_cons (source : Str) (channels : List Str) (cols : List Nat)
    (extra : Str) (l : Str) (L : List Str) :
    msOfLines source channels cols extra (l :: L) =
      rowMeas source channels cols extra (csvRow (rstripRN l)) ++
        msOfLines source channels cols extra L := by
  simp [msOfLines]

theorem msOfLines_append (source : Str) (channels : List Str) (cols : List Nat)
    (extra : Str) (A B : List Str) :
    msOfLines source channels cols extra (A ++ B) =
      msOfLines source channels cols extra A ++ msOfLines source channels cols extra B := by
  simp [msOfLines]

theorem rowMeas_nil (source : Str) (channels : List Str) (cols : List Nat) (extra : Str) :
    rowMeas source channels cols extra [] = [] := rfl

theorem msOfLines_lf_cons (source : Str) (channels : List Str) (cols : List Nat)
    (extra : Str) (L : List Str) :
    msOfLines source channels cols extra (['\n'] :: L) =
      msOfLines source channels cols extra L := by
  rw [msOfLines_cons]
  have h1 : rstripRN ['\n'] = [] := by decide
  rw [h1]
  rfl

theorem msOfLines_modLast_lf (source : Str) (channels : List Str) (cols : List Nat)
    (extra : Str) (L : List Str) :
    msOfLines source channels cols extra (modLast (fun l => l ++ ['\n']) L) =
      msOfLines source channels cols extra L := by
  induction L with
  | nil => rfl
  | cons l ls ih =>
    cases ls with
    | nil =>
      show msOfLines source channels cols extra [l ++ ['\n']] =
        msOfLines source channels cols extra [l]
      rw [msOfLines_cons, msOfLines_cons, rstripRN_append_lf]
    | cons a t =>
      rw [modLast_cons _ _ (by simp), msOfLines_cons, msOfLines_cons, ih]

/-- Measurement-level clean append: measurements of the lines of `a ++ b`
split as those of `a` plus those of `b`, whenever `a` ends in a
terminator (the `"\r" + "\n"` boundary only shifts an empty line, which
yields no measurements). -/
theorem msOfLines_splitK_append (source : Str) (channels : List Str) (cols : List Nat)
    (extra : Str) {a : Str} (ha : endsTermB a = true) (b : Str) :
    msOfLines source channels cols extra (splitK (a ++ b)) =
      msOfLines source channels cols extra (splitK a) ++
        msOfLines source channels cols extra (splitK b) := by
  by_cases hcrlf : a.getLast? = some '\r' ∧ b.head? = some '\n'
  · obtain ⟨hlast, hhead⟩ := hcrlf
    cases b with
    | nil => simp at hhead
    | cons x b2 =>
      simp only [List.head?_cons, Option.some.injEq] at hhead
      subst hhead
      rw [splitK_append_crlf hlast, msOfLines_append, msOfLines_modLast_lf,
        splitK_cons_lf, msOfLines_lf_cons]
  · rw [splitK_append ha hcrlf, msOfLines_append]

/-- The heart of chunking composition: the processed lines of `d ++ e`
produce the measurements of the lines a poll over `d` processes followed
by those of the withheld tail of `d` re-joined with `e`; and the final
withheld tails agree. -/
theorem frag_merge (source : Str) (channels : List Str) (cols : List Nat)
    (extra : Str) (d e : Str) :
    msOfLines source channels cols extra (splitTail (d ++ e)).1 =
      msOfLines source channels cols extra (splitTail d).1 ++
        msOfLines source channels cols extra (splitTail ((splitTail d).2 ++ e)).1 ∧
      (splitTail (d ++ e)).2 = (splitTail ((splitTail d).2 ++ e)).2 := by
  by_cases hd : d = []
  · subst hd
    rw [splitTail_nil, List.nil_append]
    show msOfLines source channels cols extra (splitTail e).1 =
        msOfLines source channels cols extra [] ++
          msOfLines source channels cols extra (splitTail (([] : Str) ++ e)).1 ∧
      (splitTail e).2 = (splitTail (([] : Str) ++ e)).2
    rw [List.nil_append]
    exact ⟨by simp [msOfLines], rfl⟩
  by_cases hrn : endsRNB d = true
  · -- the data ends in a narrow terminator: nothing withheld
    have hTw : endsTermB d = true := by
      rw [endsRNB] at hrn
      rw [endsTermB]
      cases hgl : d.getLast? with
      | none => rw [hgl] at hrn; exact absurd hrn (by decide)
      | some c => rw [hgl] at hrn; exact isRNC_isTermC hrn
    have hst : splitTail d = (splitK d, []) := splitTail_endsRN hrn
    rw [hst]
    by_cases he : e = []
    · subst he
      rw [List.append_nil]
      show msOfLines source channels cols extra (splitTail d).1 =
          msOfLines source channels cols extra (splitK d) ++
            msOfLines source channels cols extra (splitTail (([] : Str) ++ [])).1 ∧
        (splitTail d).2 = (splitTail (([] : Str) ++ [])).2
      rw [hst, show (([] : Str) ++ []) = ([] : Str) from rfl, splitTail_nil]
      exact ⟨by simp [msOfLines], rfl⟩
    · by_cases hcr : d.getLast? = some '\r' ∧ e.head? = some '\n'
      · obtain ⟨hdl, heh⟩ := hcr
        obtain ⟨e2, he2⟩ : ∃ e2, e = '\n' :: e2 := by
          cases e with
          | nil => simp at heh
          | cons x t => exact ⟨t, by simpa using heh⟩
        subst he2
        show msOfLines source channels cols extra (splitTail (d ++ '\n' :: e2)).1 =
            msOfLines source channels cols extra (splitK d) ++
              msOfLines source channels cols extra (splitTail ('\n' :: e2)).1 ∧
          (splitTail (d ++ '\n' :: e2)).2 = (splitTail ('\n' :: e2)).2
        rw [show splitTail (d ++ '\n' :: e2) = tailPieces (splitK (d ++ '\n' :: e2)) from rfl,
          splitK_append_crlf hdl e2]
        have hM : splitK d ≠ [] := splitK_ne_nil hd
        by_cases he2n : e2 = []
        · subst he2n
          rw [show splitK ([] : Str) = [] from rfl, List.append_nil,
            tailPieces_modLast_lf hM,
            show splitTail (('\n' :: [] : Str)) = ([['\n']], []) from by decide]
          constructor
          · show msOfLines source channels cols extra
                (modLast (fun l => l ++ ['\n']) (splitK d)) =
              msOfLines source channels cols extra (splitK d) ++
                msOfLines source channels cols extra [['\n']]
            rw [msOfLines_modLast_lf, msOfLines_lf_cons]
            simp [msOfLines]
          · rfl
        · have hB : splitK e2 ≠ [] := splitK_ne_nil he2n
          rw [tailPieces_append hB,
            show splitTail ('\n' :: e2) = tailPieces (splitK ('\n' :: e2)) from rfl,
            splitK_cons_lf, show (['\n'] :: splitK e2) = [['\n']] ++ splitK e2 from rfl,
            tailPieces_append hB]
          constructor
          · show msOfLines source channels cols extra
                (modLast (fun l => l ++ ['\n']) (splitK d) ++ (tailPieces (splitK e2)).1) =
              msOfLines source channels cols extra (splitK d) ++
                msOfLines source channels cols extra
                  (['\n'] :: (tailPieces (splitK e2)).1)
            rw [msOfLines_append, msOfLines_modLast_lf, msOfLines_lf_cons]
          · rfl
      · show msOfLines source channels cols extra (splitTail (d ++ e)).1 =
            msOfLines source channels cols extra (splitK d) ++
              msOfLines source channels cols extra (splitTail e).1 ∧
          (splitTail (d ++ e)).2 = (splitTail e).2
        rw [splitTail_shift hTw he hcr]
        exact ⟨msOfLines_append source channels cols extra _ _, rfl⟩
  by_cases hfr : fragPart d = []
  · -- the data ends in a wide boundary that is not narrow: the whole
    -- last (complete per splitlines) line is withheld
    have hdd : d.dropLast ++ [d.getLast hd] = d := List.dropLast_append_getLast hd
    have hglw : d.getLast? = some (d.getLast hd) := List.getLast?_eq_getLast d hd
    have hTw : endsTermB d = true := (endsTermB_eq_fragPart_nil hd).2 hfr
    have hwt : isTermC (d.getLast hd) = true := by
      rw [endsTermB, hglw] at hTw
      exact hTw
    have hwn : isRNC (d.getLast hd) = false := by
      cases h2 : isRNC (d.getLast hd)
      · rfl
      · rw [endsRNB, hglw] at hrn
        exact absurd h2 hrn
    have hst : splitTail d =
        (splitK (termPart d.dropLast), fragPart d.dropLast ++ [d.getLast hd]) := by
      conv_lhs => rw [← hdd]
      exact splitTail_concat_wide hwt hwn
    rw [hst]
    show msOfLines source channels cols extra (splitTail (d ++ e)).1 =
        msOfLines source channels cols extra (splitK (termPart d.dropLast)) ++
          msOfLines source channels cols extra
            (splitTail ((fragPart d.dropLast ++ [d.getLast hd]) ++ e)).1 ∧
      (splitTail (d ++ e)).2 =
        (splitTail ((fragPart d.dropLast ++ [d.getLast hd]) ++ e)).2
    have hhne : fragPart d.dropLast ++ [d.getLast hd] ≠ [] := by simp
    have hnt : noTermB (fragPart d.dropLast) = true := fragPart_noTerm _
    have hhhd : (fragPart d.dropLast ++ [d.getLast hd]).head? ≠ some '\n' := by
      have hwn2 : d.getLast hd ≠ '\n' := by
        intro e2
        rw [e2] at hwn
        exact absurd hwn (by decide)
      cases hfp : fragPart d.dropLast with
      | nil =>
        simp only [hfp, List.nil_append, List.head?_cons, ne_eq, Option.some.injEq]
        exact hwn2
      | cons a t =>
        have hhd0 : (fragPart d.dropLast).head? ≠ some '\n' := head_ne_lf_of_noTerm hnt
        rw [hfp] at hhd0
        simpa using hhd0
    have hd2 : d ++ e = termPart d.dropLast ++ ((fragPart d.dropLast ++ [d.getLast hd]) ++ e) := by
      conv_lhs => rw [← hdd]
      rw [← List.append_assoc, ← List.append_assoc, termPart_append_fragPart]
    by_cases ht : termPart d.dropLast = []
    · have hdh : d = fragPart d.dropLast ++ [d.getLast hd] := by
        have h3 := termPart_append_fragPart d.dropLast
        rw [ht, List.nil_append] at h3
        conv_lhs => rw [← hdd]
        rw [h3]
      rw [ht, show splitK ([] : Str) = [] from rfl,
        show (fragPart d.dropLast ++ [d.getLast hd]) ++ e = d ++ e from by rw [← hdh]]
      exact ⟨by simp [msOfLines], rfl⟩
    · have hterm2 : endsTermB (termPart d.dropLast) = true := termPart_endsTerm ht
      have hb : (fragPart d.dropLast ++ [d.getLast hd]) ++ e ≠ [] := by simp
      have hside : ¬((termPart d.dropLast).getLast? = some '\r' ∧
          ((fragPart d.dropLast ++ [d.getLast hd]) ++ e).head? = some '\n') := by
        intro hcc
        apply hhhd
        rw [← hcc.2, List.head?_append_of_ne_nil _ hhne]
      rw [show splitTail (d ++ e) =
          (splitK (termPart d.dropLast) ++
            (splitTail ((fragPart d.dropLast ++ [d.getLast hd]) ++ e)).1,
           (splitTail ((fragPart d.dropLast ++ [d.getLast hd]) ++ e)).2) from by
        rw [hd2]
        exact splitTail_shift hterm2 hb hside]
      exact ⟨msOfLines_append source channels cols extra _ _, rfl⟩
  · -- the data ends in ordinary characters: that fragment is withheld
    rw [splitTail_midFrag hfr]
    show msOfLines source channels cols extra (splitTail (d ++ e)).1 =
        msOfLines source channels cols extra (splitK (termPart d)) ++
          msOfLines source channels cols extra (splitTail (fragPart d ++ e)).1 ∧
      (splitTail (d ++ e)).2 = (splitTail (fragPart d ++ e)).2
    by_cases ht : termPart d = []
    · have hdf : d = fragPart d := by
        have h2 := termPart_append_fragPart d
        rw [ht, List.nil_append] at h2
        exact h2.symm
      rw [ht, show splitK ([] : Str) = [] from rfl,
        show fragPart d ++ e = d ++ e from by rw [← hdf]]
      exact ⟨by simp [msOfLines], rfl⟩
    · have hterm2 : endsTermB (termPart d) = true := termPart_endsTerm ht
      have hnt : noTermB (fragPart d) = true := fragPart_noTerm d
      have hb : fragPart d ++ e ≠ [] := by simp [hfr]
      have hside : ¬((termPart d).getLast? = some '\r' ∧
          (fragPart d ++ e).head? = some '\n') := by
        intro hcc
        apply head_ne_lf_of_noTerm hnt
        rw [← hcc.2, List.head?_append_of_ne_nil _ hfr]
      rw [show splitTail (d ++ e) =
          (splitK (termPart d) ++ (splitTail (fragPart d ++ e)).1,
           (splitTail (fragPart d ++ e)).2) from by
        rw [show d ++ e = termPart d ++ (fragPart d ++ e) from by
          rw [← List.append_assoc, termPart_append_fragPart]]
        exact splitTail_shift hterm2 hb hside]
      exact ⟨msOfLines_append source channels cols extra _ _, rfl⟩

/-! ### The bulk phase under a known header -/

theorem processRows_of_header {extra : Str} {st : FileState} {rows : List (List Str)}
    (h : st.header_found = true) :
    processRows extra st rows =
      (st, rows.flatMap (rowMeas st.source st.channels st.channel_cols extra)) := by
  induction rows with
  | nil => simp [processRows]
  | cons row rest ih =>
    rw [processRows, if_pos h, ih]
    simp

theorem bulkPhase_of_header {content : Str} {st : FileState} (h : st.header_found = true) :
    bulkPhase content st =
      if content.drop st.pos = [] then (st, [])
      else
        ({ st with pos := st.pos + (content.drop st.pos).length,
                   remainder := (splitTail (st.remainder ++ content.drop st.pos)).2 },
         msOfLines st.source st.channels st.channel_cols (pyBasename st.path)
           (splitTail (st.remainder ++ content.drop st.pos)).1) := by
  simp only [bulkPhase]
  by_cases hc : content.drop st.pos = []
  · rw [if_pos hc, if_pos hc]
  · rw [if_neg hc, if_neg hc]
    rw [processRows_of_header
      (show ({ st with remainder := (splitTail (st.remainder ++ content.drop st.pos)).2 }
        : FileState).header_found = true from h)]
    simp [msOfLines, List.flatMap_map, Function.comp]

/-- A poll in the tailing regime (header known, file not truncated):
closed form of `read_new_measurements`. -/
theorem read_new_of_header {content : Str} {st : FileState} (h : st.header_found = true)
    (hpos : st.pos ≤ content.length) :
    read_new_measurements content st =
      if content.drop st.pos = [] then (st, [])
      else
        ({ st with pos := st.pos + (content.drop st.pos).length,
                   remainder := (splitTail (st.remainder ++ content.drop st.pos)).2 },
         msOfLines st.source st.channels st.channel_cols (pyBasename st.path)
           (splitTail (st.remainder ++ content.drop st.pos)).1) := by
  rw [read_new_measurements, if_neg (by omega : ¬ content.length < st.pos),
    readAfterTrunc, if_pos h]
  exact bulkPhase_of_header h

/-- Two successive polls in the tailing regime compose: the second poll
on the grown file continues exactly where a single poll over the whole
content would have ended, and the two measurement lists concatenate to
the single poll's list. -/
theorem poll_merge {st : FileState} {c e : Str} (h : st.header_found = true)
    (hpos : st.pos ≤ c.length) :
    (read_new_measurements (c ++ e) (read_new_measurements c st).1).1 =
        (read_new_measurements (c ++ e) st).1 ∧
      (read_new_measurements c st).2 ++
          (read_new_measurements (c ++ e) (read_new_measurements c st).1).2 =
        (read_new_measurements (c ++ e) st).2 := by
  have hpos2 : st.pos ≤ (c ++ e).length := by rw [List.length_append]; omega
  by_cases hc : c.drop st.pos = []
  · rw [read_new_of_header h hpos, if_pos hc]
    simp
  · have hlen1 : st.pos + (c.drop st.pos).length = c.length := by
      rw [List.length_drop]; omega
    have hdropapp : (c ++ e).drop st.pos = c.drop st.pos ++ e :=
      List.drop_append_of_le_length hpos
    have h1 : read_new_measurements c st =
        ({ st with pos := st.pos + (c.drop st.pos).length,
                   remainder := (splitTail (st.remainder ++ c.drop st.pos)).2 },
         msOfLines st.source st.channels st.channel_cols (pyBasename st.path)
           (splitTail (st.remainder ++ c.drop st.pos)).1) := by
      rw [read_new_of_header h hpos, if_neg hc]
    have h0 : read_new_measurements (c ++ e) st =
        ({ st with pos := st.pos + ((c ++ e).drop st.pos).length,
                   remainder := (splitTail (st.remainder ++ (c ++ e).drop st.pos)).2 },
         msOfLines st.source st.channels st.channel_cols (pyBasename st.path)
           (splitTail (st.remainder ++ (c ++ e).drop st.pos)).1) := by
      rw [read_new_of_header h hpos2, if_neg (by
        rw [hdropapp]
        simp [hc])]
    have h2main := @read_new_of_header (c ++ e)
      { st with pos := st.pos + (c.drop st.pos).length,
                remainder := (splitTail (st.remainder ++ c.drop st.pos)).2 }
      (show ({ st with pos := st.pos + (c.drop st.pos).length,
                       remainder := (splitTail (st.remainder ++ c.drop st.pos)).2 }
        : FileState).header_found = true from h)
      (by
        show st.pos + (c.drop st.pos).length ≤ (c ++ e).length
        rw [hlen1, List.length_append]
        omega)
    have hdrop1 : (c ++ e).drop
        ({ st with pos := st.pos + (c.drop st.pos).length,
                   remainder := (splitTail (st.remainder ++ c.drop st.pos)).2 }
          : FileState).pos = e := by
      show (c ++ e).drop (st.pos + (c.drop st.pos).length) = e
      rw [hlen1]
      exact List.drop_left c e
    rw [hdrop1] at h2main
    rw [h1, h0]
    by_cases he : e = []
    · subst he
      rw [h2main, if_pos rfl]
      have hce : c ++ ([] : Str) = c := List.append_nil c
      simp only [hce, hdropapp, List.append_nil]
      refine ⟨?_, ?_⟩ <;> first | rfl | trivial
    · rw [h2main, if_neg he]
      have hfm := frag_merge st.source st.channels st.channel_cols (pyBasename st.path)
        (st.remainder ++ c.drop st.pos) e
      constructor
      · show ({ st with
            pos := st.pos + (c.drop st.pos).length + e.length,
            remainder := (splitTail ((splitTail (st.remainder ++ c.drop st.pos)).2 ++ e)).2 }
          : FileState) = _
        rw [← hfm.2]
        show _ = ({ st with
            pos := st.pos + ((c ++ e).drop st.pos).length,
            remainder := (splitTail (st.remainder ++ (c ++ e).drop st.pos)).2 } : FileState)
        rw [hdropapp, ← List.append_assoc]
        have hplen : st.pos + (c.drop st.pos).length + e.length =
            st.pos + (c.drop st.pos ++ e).length := by
          rw [List.length_append]
          omega
        rw [hplen]
      · show msOfLines st.source st.channels st.channel_cols (pyBasename st.path)
            (splitTail (st.remainder ++ c.drop st.pos)).1 ++
          msOfLines st.source st.channels st.channel_cols (pyBasename st.path)
            (splitTail ((splitTail (st.remainder ++ c.drop st.pos)).2 ++ e)).1 = _
        rw [← hfm.1, hdropapp, ← List.append_assoc]

/-! ### The header-discovery scan -/

theorem discoverGo_nil (st : FileState) : discoverGo st [] = st := rfl

theorem discoverGo_cons (st : FileState) (line : Str) (rest : List Str) :
    discoverGo st (line :: rest) =
      if headerCheck (csvRow line) = true then
        bindHeader { st with pos := st.pos + line.length } (csvRow line)
      else discoverGo { st with pos := st.pos + line.length } rest := rfl

theorem discoverGo_append (st : FileState) (ls t : List Str) :
    discoverGo st (ls ++ t) =
      if ls.any (fun l => headerCheck (csvRow l)) = true then discoverGo st ls
      else discoverGo { st with pos := st.pos + totalLen ls } t := by
  induction ls generalizing st with
  | nil =>
    simp only [List.nil_append, List.any_nil, if_neg (by simp : ¬ (false = true))]
    have h0 : ({ st with pos := st.pos + totalLen [] } : FileState) = st := by
      show ({ st with pos := st.pos + 0 } : FileState) = st
      rw [Nat.add_zero]
    rw [h0]
  | cons l ls ih =>
    rw [List.cons_append, discoverGo_cons, discoverGo_cons]
    by_cases hch : headerCheck (csvRow l) = true
    · rw [if_pos hch, if_pos hch, if_pos (by simp [hch])]
    · rw [if_neg hch, if_neg hch, ih]
      have hany : (l :: ls).any (fun l => headerCheck (csvRow l)) =
          ls.any (fun l => headerCheck (csvRow l)) := by
        simp only [List.any_cons]
        rw [show headerCheck (csvRow l) = false from by
          cases hc2 : headerCheck (csvRow l)
          · rfl
          · exact absurd hc2 hch]
        simp
      rw [hany]
      by_cases ha : ls.any (fun l => headerCheck (csvRow l)) = true
      · rw [if_pos ha, if_pos ha]
      · rw [if_neg ha, if_neg ha]
        have harith : st.pos + l.length + totalLen ls = st.pos + totalLen (l :: ls) := by
          show _ = st.pos + ((l :: ls).map List.length).sum
          simp [totalLen]
          omega
        show discoverGo { st with pos := st.pos + l.length + totalLen ls } t = _
        rw [harith]

theorem discoverGo_all_fail {st : FileState} {ls : List Str}
    (h : ls.any (fun l => headerCheck (csvRow l)) = false) :
    discoverGo st ls = { st with pos := st.pos + totalLen ls } := by
  have h2 := discoverGo_append st ls []
  rw [List.append_nil, if_neg (by rw [h]; simp), discoverGo_nil] at h2
  exact h2

theorem bindHeader_header (st : FileState) (row : List Str) :
    (bindHeader st row).header_found = true := rfl

theorem discoverGo_found {st : FileState} {ls : List Str}
    (h : ls.any (fun l => headerCheck (csvRow l)) = true) :
    (discoverGo st ls).header_found = true := by
  induction ls generalizing st with
  | nil => simp at h
  | cons l ls ih =>
    rw [discoverGo_cons]
    by_cases hch : headerCheck (csvRow l) = true
    · rw [if_pos hch]; rfl
    · rw [if_neg hch]
      apply ih
      simp only [List.any_cons] at h
      rcases Bool.or_eq_true_iff.1 h with h2 | h2
      · exact absurd h2 hch
      · exact h2

theorem discoverGo_pos_le (st : FileState) (ls : List Str) :
    (discoverGo st ls).pos ≤ st.pos + totalLen ls := by
  induction ls generalizing st with
  | nil => simp [discoverGo_nil, totalLen]
  | cons l ls ih =>
    rw [discoverGo_cons]
    have hts : totalLen (l :: ls) = l.length + totalLen ls := by simp [totalLen]
    by_cases hch : headerCheck (csvRow l) = true
    · rw [if_pos hch]
      show st.pos + l.length ≤ _
      omega
    · rw [if_neg hch]
      have h2 := ih { st with pos := st.pos + l.length }
      show (discoverGo { st with pos := st.pos + l.length } ls).pos ≤ _
      have h3 : ({ st with pos := st.pos + l.length } : FileState).pos = st.pos + l.length := rfl
      omega

theorem discoverGo_fields (st : FileState) (ls : List Str) :
    (discoverGo st ls).path = st.path ∧ (discoverGo st ls).source = st.source ∧
      (discoverGo st ls).backfill = st.backfill ∧
      (discoverGo st ls).remainder = st.remainder := by
  induction ls generalizing st with
  | nil => exact ⟨rfl, rfl, rfl, rfl⟩
  | cons l ls ih =>
    rw [discoverGo_cons]
    by_cases hch : headerCheck (csvRow l) = true
    · rw [if_pos hch]
      exact ⟨rfl, rfl, rfl, rfl⟩
    · rw [if_neg hch]
      exact ih _

theorem discoverGo_single_pos (st : FileState) (l : Str) :
    (discoverGo st [l]).pos = st.pos + l.length := by
  rw [discoverGo_cons]
  by_cases hch : headerCheck (csvRow l) = true
  · rw [if_pos hch]; rfl
  · rw [if_neg hch, discoverGo_nil]

theorem consLine_modLast_cat (c : Char) (f : Str) {X : List Str} (h : X ≠ []) :
    consLine c (modLast (fun l => l ++ f) X) = modLast (fun l => l ++ f) (consLine c X) := by
  cases X with
  | nil => exact absurd rfl h
  | cons l ls =>
    cases ls with
    | nil => rfl
    | cons a t => rfl

theorem splitNL_append_lf {x : Str} (hx : x.getLast? = some '\n') (b : Str) :
    splitNL (x ++ b) = splitNL x ++ splitNL b := by
  induction x with
  | nil => simp at hx
  | cons c r ih =>
    by_cases hc : c = '\n'
    · subst hc
      cases hre : r with
      | nil =>
        subst hre
        rw [List.singleton_append, splitNL_cons_lf]
        rfl
      | cons a r2 =>
        rw [← hre]
        have hrne : r ≠ [] := by simp [hre]
        have hx2 : r.getLast? = some '\n' := by
          rw [← getLast?_cons_of_ne_nil (c := '\n') hrne]; exact hx
        rw [List.cons_append, splitNL_cons_lf, splitNL_cons_lf, ih hx2]
        rfl
    · cases hre : r with
      | nil =>
        subst hre
        simp only [List.getLast?_singleton, Option.some.injEq] at hx
        exact absurd hx hc
      | cons a r2 =>
        rw [← hre]
        have hrne : r ≠ [] := by simp [hre]
        have hx2 : r.getLast? = some '\n' := by
          rw [← getLast?_cons_of_ne_nil (c := c) hrne]; exact hx
        rw [List.cons_append, splitNL_cons_other c _ hc, splitNL_cons_other c _ hc,
          ih hx2, consLine_append c (splitNL_ne_nil hrne)]

theorem splitNL_append_noTerm {x : Str} (hxne : x ≠ []) (hxl : x.getLast? ≠ some '\n')
    {f : Str} (hf : noTermB f = true) :
    splitNL (x ++ f) = modLast (fun l => l ++ f) (splitNL x) := by
  induction x with
  | nil => exact absurd rfl hxne
  | cons c r ih =>
    by_cases hc : c = '\n'
    · subst hc
      cases hre : r with
      | nil =>
        subst hre
        simp at hxl
      | cons a r2 =>
        rw [← hre]
        have hrne : r ≠ [] := by simp [hre]
        have hx2 : r.getLast? ≠ some '\n' := by
          rw [← getLast?_cons_of_ne_nil (c := '\n') hrne]; exact hxl
        rw [List.cons_append, splitNL_cons_lf, splitNL_cons_lf, ih hrne hx2,
          modLast_cons _ _ (splitNL_ne_nil hrne)]
    · cases hre : r with
      | nil =>
        subst hre
        rw [List.singleton_append, splitNL_cons_other c _ hc,
          show splitNL [c] = [[c]] from by rw [splitNL_cons_other c [] hc]; rfl]
        by_cases hfe : f = []
        · subst hfe
          show consLine c (splitNL []) = _
          simp [splitNL, consLine, modLast]
        · rw [splitNL_of_noTerm hf hfe]
          rfl
      | cons a r2 =>
        rw [← hre]
        have hrne : r ≠ [] := by simp [hre]
        have hx2 : r.getLast? ≠ some '\n' := by
          rw [← getLast?_cons_of_ne_nil (c := c) hrne]; exact hxl
        rw [List.cons_append, splitNL_cons_other c _ hc, splitNL_cons_other c _ hc,
          ih hrne hx2, consLine_modLast_cat c f (splitNL_ne_nil hrne)]

theorem bulkPhase_ms_at_end {content : Str} {st : FileState}
    (hpos : content.length ≤ st.pos) : (bulkPhase content st).2 = [] := by
  rw [bulkPhase, if_pos (List.drop_eq_nil_iff.2 hpos)]

/-- In the tailing regime, a bulk pass over bytes ending in a
terminator-free fragment emits exactly the measurements of the lines
completed strictly before the fragment, and carries the fragment into
the withheld tail. -/
theorem bulk_frag_closed {c f : Str} {st : FileState} (h : st.header_found = true)
    (hf : noTermB f = true) (hfne : f ≠ []) (hpos : st.pos ≤ c.length) :
    (bulkPhase (c ++ f) st).2 =
        msOfLines st.source st.channels st.channel_cols (pyBasename st.path)
          (splitK (termPart (st.remainder ++ c.drop st.pos))) ∧
      (bulkPhase (c ++ f) st).1.remainder =
        fragPart (st.remainder ++ c.drop st.pos) ++ f := by
  rw [bulkPhase_of_header h]
  have hdf : (c ++ f).drop st.pos = c.drop st.pos ++ f :=
    List.drop_append_of_le_length hpos
  have hne : (c ++ f).drop st.pos ≠ [] := by
    rw [hdf]
    simp [hfne]
  rw [if_neg hne, hdf, ← List.append_assoc, splitTail_append_frag hf hfne]
  exact ⟨rfl, rfl⟩

/-- The emitted measurements of a bulk pass do not depend on the content
of a terminator-free trailing fragment. -/
theorem bulk_frag_indep {c f g : Str} {st : FileState} (h : st.header_found = true)
    (hf : noTermB f = true) (hfne : f ≠ []) (hg : noTermB g = true) (hgne : g ≠ [])
    (hpos : st.pos ≤ c.length) :
    (bulkPhase (c ++ f) st).2 = (bulkPhase (c ++ g) st).2 := by
  rw [(bulk_frag_closed h hf hfne hpos).1, (bulk_frag_closed h hg hgne hpos).1]

/-- A poll's emitted measurements do not depend on the content of the
terminator-free trailing fragment: polls over `c ++ f` and `c ++ g`
produce the same output, for any two nonempty fragments without a line
boundary, from any state — discovering or tailing. -/
theorem frag_indep {st : FileState} {c f g : Str} (hf : noTermB f = true) (hfne : f ≠ [])
    (hg : noTermB g = true) (hgne : g ≠ []) (hpos : st.pos ≤ c.length) :
    (read_new_measurements (c ++ f) st).2 = (read_new_measurements (c ++ g) st).2 := by
  have hposf : st.pos ≤ (c ++ f).length := by rw [List.length_append]; omega
  have hnotr1 : ¬ (c ++ f).length < st.pos := by rw [List.length_append]; omega
  have hnotr2 : ¬ (c ++ g).length < st.pos := by rw [List.length_append]; omega
  cases hh : st.header_found with
  | true =>
    simp only [read_new_measurements, readAfterTrunc]
    rw [if_neg hnotr1, if_neg hnotr2, if_pos hh, if_pos hh]
    exact bulk_frag_indep hh hf hfne hg hgne hpos
  | false =>
    have hiff : ¬ st.header_found = true := by rw [hh]; simp
    simp only [read_new_measurements, readAfterTrunc]
    rw [if_neg hnotr1, if_neg hnotr2, if_neg hiff, if_neg hiff]
    have hdf : (c ++ f).drop st.pos = c.drop st.pos ++ f :=
      List.drop_append_of_le_length hpos
    have hdg : (c ++ g).drop st.pos = c.drop st.pos ++ g :=
      List.drop_append_of_le_length hpos
    rw [hdf, hdg]
    set x := c.drop st.pos with hx
    have hxlen : st.pos + x.length = c.length := by rw [hx, List.length_drop]; omega
    by_cases hxnil : x = []
    · have hpe : st.pos = c.length := by rw [hxnil] at hxlen; simpa using hxlen
      rw [hxnil, List.nil_append, List.nil_append, splitNL_of_noTerm hf hfne,
        splitNL_of_noTerm hg hgne]
      have hc1 : (bulkPhase (c ++ f) (discoverGo st [f])).2 = [] := by
        apply bulkPhase_ms_at_end
        rw [List.length_append]
        have h2 := discoverGo_single_pos st f
        omega
      have hc2 : (bulkPhase (c ++ g) (discoverGo st [g])).2 = [] := by
        apply bulkPhase_ms_at_end
        rw [List.length_append]
        have h2 := discoverGo_single_pos st g
        omega
      rw [hc1, hc2]
    · by_cases hxl : x.getLast? = some '\n'
      · rw [splitNL_append_lf hxl f, splitNL_append_lf hxl g,
          splitNL_of_noTerm hf hfne, splitNL_of_noTerm hg hgne]
        set L := splitNL x with hL
        have hLlen : totalLen L = x.length := by rw [hL, totalLen_splitNL]
        by_cases hany : L.any (fun l => headerCheck (csvRow l)) = true
        · rw [discoverGo_append st L [f], if_pos hany,
            discoverGo_append st L [g], if_pos hany]
          have hhd : (discoverGo st L).header_found = true := discoverGo_found hany
          have hposD : (discoverGo st L).pos ≤ c.length := by
            have h1 := discoverGo_pos_le st L
            omega
          exact bulk_frag_indep hhd hf hfne hg hgne hposD
        · rw [discoverGo_append st L [f], if_neg hany,
            discoverGo_append st L [g], if_neg hany]
          have h3 : ({ st with pos := st.pos + totalLen L } : FileState).pos =
              st.pos + totalLen L := rfl
          have hc1 : (bulkPhase (c ++ f)
              (discoverGo { st with pos := st.pos + totalLen L } [f])).2 = [] := by
            apply bulkPhase_ms_at_end
            rw [List.length_append]
            have h2 := discoverGo_single_pos { st with pos := st.pos + totalLen L } f
            omega
          have hc2 : (bulkPhase (c ++ g)
              (discoverGo { st with pos := st.pos + totalLen L } [g])).2 = [] := by
            apply bulkPhase_ms_at_end
            rw [List.length_append]
            have h2 := discoverGo_single_pos { st with pos := st.pos + totalLen L } g
            omega
          rw [hc1, hc2]
      · set L := splitNL x with hL
        have hLne : L ≠ [] := splitNL_ne_nil hxnil
        have hmodf : splitNL (x ++ f) = modLast (fun l => l ++ f) L :=
          splitNL_append_noTerm hxnil hxl hf
        have hmodg : splitNL (x ++ g) = modLast (fun l => l ++ g) L :=
          splitNL_append_noTerm hxnil hxl hg
        have hdlf : modLast (fun l => l ++ f) L = L.dropLast ++ [L.getLast hLne ++ f] :=
          modLast_eq_dropLast_concat _ hLne
        have hdlg : modLast (fun l => l ++ g) L = L.dropLast ++ [L.getLast hLne ++ g] :=
          modLast_eq_dropLast_concat _ hLne
        have hLsplit : L = L.dropLast ++ [L.getLast hLne] :=
          (List.dropLast_append_getLast hLne).symm
        have hLlen : totalLen L = x.length := by rw [hL, totalLen_splitNL]
        have hlenparts : totalLen L.dropLast + (L.getLast hLne).length = x.length := by
          have h4 : totalLen L = totalLen L.dropLast + totalLen [L.getLast hLne] := by
            conv_lhs => rw [hLsplit]
            exact totalLen_append _ _
          have h5 : totalLen [L.getLast hLne] = (L.getLast hLne).length := by
            simp [totalLen]
          omega
        rw [hmodf, hmodg, hdlf, hdlg]
        by_cases hany : L.dropLast.any (fun l => headerCheck (csvRow l)) = true
        · rw [discoverGo_append st L.dropLast [L.getLast hLne ++ f], if_pos hany,
            discoverGo_append st L.dropLast [L.getLast hLne ++ g], if_pos hany]
          have hhd : (discoverGo st L.dropLast).header_found = true := discoverGo_found hany
          have hposD : (discoverGo st L.dropLast).pos ≤ c.length := by
            have h1 := discoverGo_pos_le st L.dropLast
            omega
          exact bulk_frag_indep hhd hf hfne hg hgne hposD
        · rw [discoverGo_append st L.dropLast [L.getLast hLne ++ f], if_neg hany,
            discoverGo_append st L.dropLast [L.getLast hLne ++ g], if_neg hany]
          have h3 : ({ st with pos := st.pos + totalLen L.dropLast } : FileState).pos =
              st.pos + totalLen L.dropLast := rfl
          have hc1 : (bulkPhase (c ++ f) (discoverGo
              { st with pos := st.pos + totalLen L.dropLast }
              [L.getLast hLne ++ f])).2 = [] := by
            apply bulkPhase_ms_at_end
            rw [List.length_append]
            have h2 := discoverGo_single_pos
              { st with pos := st.pos + totalLen L.dropLast } (L.getLast hLne ++ f)
            have h5 : (L.getLast hLne ++ f).length = (L.getLast hLne).length + f.length :=
              List.length_append _ _
            omega
          have hc2 : (bulkPhase (c ++ g) (discoverGo
              { st with pos := st.pos + totalLen L.dropLast }
              [L.getLast hLne ++ g])).2 = [] := by
            apply bulkPhase_ms_at_end
            rw [List.length_append]
            have h2 := discoverGo_single_pos
              { st with pos := st.pos + totalLen L.dropLast } (L.getLast hLne ++ g)
            have h5 : (L.getLast hLne ++ g).length = (L.getLast hLne).length + g.length :=
              List.length_append _ _
            omega
          rw [hc1, hc2]

/-- In the tailing regime, the closed form of a poll over bytes ending
in a terminator-free fragment: the output comes entirely from the lines
completed before the fragment, and the fragment is retained (as the
suffix of the new pending tail), not emitted. -/
theorem read_frag_closed {st : FileState} {c f : Str} (h : st.header_found = true)
    (hf : noTermB f = true) (hfne : f ≠ []) (hpos : st.pos ≤ c.length) :
    (read_new_measurements (c ++ f) st).2 =
        msOfLines st.source st.channels st.channel_cols (pyBasename st.path)
          (splitK (termPart (st.remainder ++ c.drop st.pos))) ∧
      (read_new_measurements (c ++ f) st).1.remainder =
        fragPart (st.remainder ++ c.drop st.pos) ++ f := by
  have hnotr : ¬ (c ++ f).length < st.pos := by rw [List.length_append]; omega
  simp only [read_new_measurements, readAfterTrunc]
  rw [if_neg hnotr, if_pos h]
  exact bulk_frag_closed h hf hfne hpos

/-! ### The binding-shape invariant -/

theorem channelsFrom_wf (cells : List Str) (idx : Nat) :
    (channelsFrom cells idx).1.length = (channelsFrom cells idx).2.length ∧
      (channelsFrom cells idx).2.Chain' (· < ·) ∧
      ∀ i ∈ (channelsFrom cells idx).2, idx ≤ i := by
  induction cells generalizing idx with
  | nil => exact ⟨rfl, List.chain'_nil, fun i hi => absurd hi (List.not_mem_nil i)⟩
  | cons cell rest ih =>
    have h := ih (idx + 1)
    rw [channelsFrom]
    by_cases hb : pyStrip cell = []
    · rw [if_pos hb]
      exact ⟨h.1, h.2.1, fun i hi => Nat.le_of_succ_le (h.2.2 i hi)⟩
    · rw [if_neg hb]
      refine ⟨by simp [h.1], ?_, ?_⟩
      · rw [List.chain'_cons']
        refine ⟨fun b hb2 => ?_, h.2.1⟩
        have hbm : b ∈ (channelsFrom rest (idx + 1)).2 := List.mem_of_mem_head? hb2
        exact Nat.lt_of_succ_le (h.2.2 b hbm)
      · intro i hi
        rcases List.mem_cons.1 hi with hi | hi
        · omega
        · exact Nat.le_of_succ_le (h.2.2 i hi)

theorem bindHeader_wf (st : FileState) (row : List Str) :
    bindingsWF (bindHeader st row) := by
  have h := channelsFrom_wf (row.drop 2) 2
  exact ⟨h.1, h.2.1, h.2.2⟩

theorem discoverGo_inv {st : FileState} (ls : List Str)
    (h : st.header_found = true → bindingsWF st) :
    (discoverGo st ls).header_found = true → bindingsWF (discoverGo st ls) := by
  induction ls generalizing st with
  | nil => exact h
  | cons l rest ih =>
    rw [discoverGo_cons]
    by_cases hch : headerCheck (csvRow l) = true
    · rw [if_pos hch]
      exact fun _ => bindHeader_wf _ _
    · rw [if_neg hch]
      exact ih (fun hh => h hh)

theorem processRows_inv {extra : Str} {st : FileState} (rows : List (List Str))
    (h : st.header_found = true → bindingsWF st) :
    (processRows extra st rows).1.header_found = true →
      bindingsWF (processRows extra st rows).1 := by
  induction rows generalizing st with
  | nil => exact h
  | cons row rest ih =>
    rw [processRows]
    by_cases hh : st.header_found = true
    · rw [if_pos hh]
      exact ih h
    · rw [if_neg hh]
      by_cases hch : headerCheck row = true
      · rw [if_pos hch]
        exact ih (fun _ => bindHeader_wf _ _)
      · rw [if_neg hch]
        exact ih h

theorem bulkPhase_inv {content : Str} {st : FileState}
    (h : st.header_found = true → bindingsWF st) :
    (bulkPhase content st).1.header_found = true → bindingsWF (bulkPhase content st).1 := by
  rw [bulkPhase]
  by_cases hc : content.drop st.pos = []
  · rw [if_pos hc]
    exact h
  · rw [if_neg hc]
    exact processRows_inv _ h

theorem read_new_inv {content : Str} {st : FileState}
    (h : st.header_found = true → bindingsWF st) :
    (read_new_measurements content st).1.header_found = true →
      bindingsWF (read_new_measurements content st).1 := by
  rw [read_new_measurements, readAfterTrunc]
  by_cases ht : content.length < st.pos
  · rw [if_pos ht]
    by_cases hh : (truncReset st).header_found = true
    · rw [if_pos hh]
      exact bulkPhase_inv (fun _ => absurd hh (by simp [truncReset]))
    · rw [if_neg hh]
      exact bulkPhase_inv (discoverGo_inv _ (fun h2 => absurd h2 (by simp [truncReset])))
  · rw [if_neg ht]
    by_cases hh : st.header_found = true
    · rw [if_pos hh]
      exact bulkPhase_inv h
    · rw [if_neg hh]
      exact bulkPhase_inv (discoverGo_inv _ (fun h2 => absurd h2 hh))

theorem ensure_inv {content : Str} {st : FileState} :
    (ensure_header_and_position content st).header_found = true →
      bindingsWF (ensure_header_and_position content st) := by
  rw [ensure_header_and_position]
  have hbase : ({ st with pos := 0, header_found := false } : FileState).header_found
      = true → bindingsWF { st with pos := 0, header_found := false } := by
    intro h2
    simp at h2
  have hdisc := @discoverGo_inv { st with pos := 0, header_found := false }
    (splitNL content) hbase
  by_cases hh : (discoverGo { st with pos := 0, header_found := false }
      (splitNL content)).header_found = true
  · rw [if_pos hh]
    by_cases hb : (discoverGo { st with pos := 0, header_found := false }
        (splitNL content)).backfill = true
    · rw [if_pos hb]
      exact hdisc
    · rw [if_neg hb]
      exact fun _ => hdisc hh
  · rw [if_neg hh]
    set st1 := discoverGo { st with pos := 0, header_found := false } (splitNL content)
    by_cases hb : ({ st1 with channels := [], pos := content.length } : FileState).backfill
        = true
    · rw [if_pos hb]
      intro h2
      exact absurd h2 hh
    · rw [if_neg hb]
      intro h2
      exact absurd h2 hh

/-- Every reachable state with a recognised header has well-shaped
bindings. -/
theorem reachable_inv {st : FileState} (h : Reachable st) :
    st.header_found = true → bindingsWF st := by
  induction h with
  | init path source backfill => intro h2; simp [initState] at h2
  | ensure st content _ _ => exact ensure_inv
  | poll st content _ ih => exact read_new_inv ih

/-! ### The watch loop trace -/

theorem watchActs_succ (stop : Nat → Bool) (k fuel : Nat) :
    watchActs stop k (fuel + 1) =
      WAct.check ::
        (if stop k = true then [WAct.ret]
         else WAct.work :: WAct.sleep :: watchActs stop (k + 1) fuel) := rfl

theorem guardPairs_cons₂ (ok : WAct → WAct → Bool) (a b : WAct) (rest : List WAct) :
    guardPairs ok (a :: b :: rest) = (ok a b && guardPairs ok (b :: rest)) := rfl

theorem watchActs_head (stop : Nat → Bool) (k n : Nat) :
    watchActs stop k n = [] ∨ (watchActs stop k n).head? = some WAct.check := by
  cases n with
  | zero => exact Or.inl rfl
  | succ n => exact Or.inr rfl

theorem watchActs_stop_immediate {stop : Nat → Bool} {k : Nat} (n : Nat)
    (h : stop k = true) : watchActs stop k (n + 1) = [WAct.check, WAct.ret] := by
  rw [watchActs_succ, if_pos h]

/-- The single sampling point of each iteration sits at the top of the
loop: every `work` is immediately preceded by the `check`, while every
`sleep` is immediately preceded by the `work` (no sample between them). -/
theorem watchActs_guards (stop : Nat → Bool) : ∀ (n k : Nat),
    workGuardsSleep (watchActs stop k n) = true ∧
      checkGuardsWork (watchActs stop k n) = true := by
  intro n
  induction n with
  | zero => intro k; exact ⟨rfl, rfl⟩
  | succ n ih =>
    intro k
    rw [watchActs_succ]
    by_cases hs : stop k = true
    · rw [if_pos hs]
      exact ⟨rfl, rfl⟩
    · rw [if_neg hs]
      have hih := ih (k + 1)
      cases hR : watchActs stop (k + 1) n with
      | nil => exact ⟨rfl, rfl⟩
      | cons a R2 =>
        have hhead : a = WAct.check := by
          rcases watchActs_head stop (k + 1) n with h2 | h2
          · rw [hR] at h2; simp at h2
          · rw [hR] at h2; simpa using h2
        subst hhead
        rw [hR] at hih
        constructor
        · show guardPairs sleepNeedsWork
            (WAct.check :: WAct.work :: WAct.sleep :: WAct.check :: R2) = true
          rw [guardPairs_cons₂, guardPairs_cons₂, guardPairs_cons₂]
          have h1 : sleepNeedsWork WAct.check WAct.work = true := rfl
          have h2 : sleepNeedsWork WAct.work WAct.sleep = true := rfl
          have h3 : sleepNeedsWork WAct.sleep WAct.check = true := rfl
          rw [h1, h2, h3]
          simpa using hih.1
        · show guardPairs workNeedsCheck
            (WAct.check :: WAct.work :: WAct.sleep :: WAct.check :: R2) = true
          rw [guardPairs_cons₂, guardPairs_cons₂, guardPairs_cons₂]
          have h1 : workNeedsCheck WAct.check WAct.work = true := rfl
          have h2 : workNeedsCheck WAct.work WAct.sleep = true := rfl
          have h3 : workNeedsCheck WAct.sleep WAct.check = true := rfl
          rw [h1, h2, h3]
          simpa using hih.2

/-! ### The ingest commit policy -/

theorem ingestLoop_no_close (N : Nat) (T : ℚ) :
    ∀ (ts : List ℚ) (a : Nat) (lastC : ℚ), IEv.close ∉ ingestLoop N T a lastC ts := by
  intro ts
  induction ts with
  | nil => intro a lastC h; simp [ingestLoop] at h
  | cons t rest ih =>
    intro a lastC h
    rw [ingestLoop] at h
    by_cases hc : (a + 1) % N = 0 ∨ T ≤ t - lastC
    · rw [if_pos hc] at h
      rcases List.mem_cons.1 h with h2 | h2
      · cases h2
      · rcases List.mem_cons.1 h2 with h3 | h3
        · cases h3
        · exact ih (a + 1) t h3
    · rw [if_neg hc] at h
      rcases List.mem_cons.1 h with h2 | h2
      · cases h2
      · exact ih (a + 1) lastC h2

/-- `flatMap` over `range (n+1)` peels its first element. -/
theorem range_flatMap_succ {A : Type} (f : Nat → List A) (n : Nat) :
    (List.range (n + 1)).flatMap f = f 0 ++ (List.range n).flatMap fun k => f (k + 1) := by
  rw [List.range_succ_eq_map, List.flatMap_cons, List.flatMap_map]

/-- Positional reading of the commit policy: processing the k-th row
flushes exactly when the cumulative attempt count hits a multiple of `N`
or at least `T` seconds have passed since the last flush. -/
theorem ingestLoop_flush_iff (N : Nat) (T : ℚ) :
    ∀ (ts : List ℚ) (a : Nat) (lastC : ℚ),
      ingestLoop N T a lastC ts =
        (List.range ts.length).flatMap fun k =>
          IEv.ins ::
            (if (a + k + 1) % N = 0 ∨ T ≤ ts.getD k 0 - lastFlushFrom N T a lastC ts k
             then [IEv.flush] else []) := by
  intro ts
  induction ts with
  | nil => intro a lastC; rfl
  | cons t rest ih =>
    intro a lastC
    have hbody : ∀ k : Nat,
        (IEv.ins :: (if (a + (k + 1) + 1) % N = 0 ∨
            T ≤ (t :: rest).getD (k + 1) 0 -
              lastFlushFrom N T a lastC (t :: rest) (k + 1)
          then [IEv.flush] else [])) =
        (IEv.ins :: (if ((a + 1) + k + 1) % N = 0 ∨
            T ≤ rest.getD k 0 -
              lastFlushFrom N T (a + 1)
                (if (a + 1) % N = 0 ∨ T ≤ t - lastC then t else lastC) rest k
          then [IEv.flush] else [])) := by
      intro k
      have h1 : a + (k + 1) + 1 = (a + 1) + k + 1 := by omega
      have h2 : (t :: rest).getD (k + 1) 0 = rest.getD k 0 := rfl
      have h3 : lastFlushFrom N T a lastC (t :: rest) (k + 1) =
          lastFlushFrom N T (a + 1)
            (if (a + 1) % N = 0 ∨ T ≤ t - lastC then t else lastC) rest k := rfl
      rw [h1, h2, h3]
    rw [ingestLoop, show (t :: rest).length = rest.length + 1 from rfl,
      range_flatMap_succ]
    trans (IEv.ins :: (if (a + 1) % N = 0 ∨ T ≤ t - lastC then [IEv.flush] else [])) ++
      ingestLoop N T (a + 1) (if (a + 1) % N = 0 ∨ T ≤ t - lastC then t else lastC) rest
    · by_cases hc : (a + 1) % N = 0 ∨ T ≤ t - lastC
      · rw [if_pos hc, if_pos hc, if_pos hc]
        rfl
      · rw [if_neg hc, if_neg hc, if_neg hc]
        rfl
    · congr 1
      rw [ih (a + 1) (if (a + 1) % N = 0 ∨ T ≤ t - lastC then t else lastC)]
      congr 1
      funext k
      exact (hbody k).symm

/-! ### Header-binding characterization and store lemmas -/

theorem channelsFrom_spec (row : List Str) :
    ∀ (n k : Nat), k + n = row.length →
      channelsFrom (row.drop k) k =
        (((List.range' k n).filter fun i => decide (pyStrip (row.getD i []) ≠ [])).map
           fun i => pyStrip (row.getD i []),
         (List.range' k n).filter fun i => decide (pyStrip (row.getD i []) ≠ [])) := by
  intro n
  induction n with
  | zero =>
    intro k hk
    have hd : row.drop k = [] := by rw [List.drop_eq_nil_iff]; omega
    rw [hd]
    rfl
  | succ n ih =>
    intro k hk
    have hklt : k < row.length := by omega
    rw [List.drop_eq_getElem_cons hklt]
    simp only [channelsFrom]
    rw [ih (k + 1) (by omega), List.range'_succ k n 1, List.filter_cons]
    have hgd : row.getD k [] = row[k] := List.getD_eq_getElem row [] hklt
    by_cases hb : pyStrip row[k] = []
    · rw [if_pos hb]
      rw [show (decide (pyStrip (row.getD k []) ≠ [])) = false from by
        rw [hgd]; simp [hb]]
      simp
    · rw [if_neg hb]
      rw [show (decide (pyStrip (row.getD k []) ≠ [])) = true from by
        rw [hgd]; simp [hb]]
      simp [hgd, List.getElem?_eq_getElem hklt]

theorem countKey_append (db1 db2 : List SRow) (r : SRow) :
    countKey (db1 ++ db2) r = countKey db1 r + countKey db2 r := by
  simp [countKey, List.filter_append]

theorem sameKey_refl (r : SRow) : sameKey r r = true := by
  simp [sameKey]

theorem sameKey_symm {a b : SRow} (h : sameKey a b = true) : sameKey b a = true := by
  simp only [sameKey, Bool.and_eq_true, decide_eq_true_eq] at *
  exact ⟨⟨h.1.1.symm, h.1.2.symm⟩, h.2.symm⟩

theorem sameKey_congr {a b x : SRow} (h : sameKey a b = true) :
    sameKey a x = sameKey b x := by
  simp only [sameKey, Bool.and_eq_true, decide_eq_true_eq] at h
  simp only [sameKey, h.1.1, h.1.2, h.2]

theorem any_eq_false_of_countKey_zero {db : List SRow} {r : SRow}
    (h : countKey db r = 0) : db.any (sameKey r) = false := by
  rw [countKey, List.length_eq_zero] at h
  cases hany : db.any (sameKey r)
  · rfl
  · rw [List.any_eq_true] at hany
    obtain ⟨x, hx, hkx⟩ := hany
    have : x ∈ db.filter (sameKey r) := List.mem_filter.2 ⟨hx, hkx⟩
    rw [h] at this
    cases this

/-! ### Claim theorems -/

/-- C1: the tailer is not chunking-invariant. Delivering the file
content of `cexFull` across two polls — the first seeing only a strict
prefix of the header line — yields one measurement, while a single poll
over the whole content yields two: the multisets differ, because the
discovery scan examines the unterminated header fragment and binds only
the channels visible in it. -/
theorem c1_chunking_not_invariant :
    cexChunked.length = 1 ∧ cexOneShot.length = 2 ∧
      Multiset.ofList cexChunked ≠ Multiset.ofList cexOneShot := by
  refine ⟨by decide, by decide, by decide⟩

/-- C2: the cursor advances past withheld partial-line bytes. A tailing
state at position 0 that reads the single unterminated byte `"x"` ends
with `pos = 1` (the file's end) while the byte sits in the pending-tail
buffer and no line was completed — the cursor was advanced by the full
chunk, not by the bytes consumed into completed lines (which are 0). -/
theorem c2_cursor_overadvance :
    (read_new_measurements (str "x") cexTailSt).1.pos = 1 ∧
      (read_new_measurements (str "x") cexTailSt).1.remainder = str "x" ∧
      (read_new_measurements (str "x") cexTailSt).2 = [] := by
  decide

/-- C3: inserting a measurement with an already-present
`(timestamp, source, channel)` key leaves exactly one row for that key,
for any combination of the `INSERT OR IGNORE` path and the
`WHERE NOT EXISTS` path. -/
theorem c3_idempotent_insert (db : List SRow) (r r2 : SRow) (b1 b2 : Bool)
    (hkey : sameKey r r2 = true) (h0 : countKey db r = 0) :
    countKey (insertSample b2 (insertSample b1 db r) r2) r = 1 := by
  have hany1 : db.any (sameKey r) = false := any_eq_false_of_countKey_zero h0
  have hins1 : insertSample b1 db r = db ++ [r] := by
    cases b1 <;> simp [insertSample, insertOrIgnore, insertWhereNotExists, hany1]
  have hc1 : countKey (db ++ [r]) r = 1 := by
    rw [countKey_append, h0]
    simp [countKey, sameKey_refl]
  have hany2 : (db ++ [r]).any (sameKey r2) = true := by
    rw [List.any_eq_true]
    exact ⟨r, by simp, sameKey_symm hkey⟩
  have hins2 : insertSample b2 (db ++ [r]) r2 = db ++ [r] := by
    cases b2 <;> simp [insertSample, insertOrIgnore, insertWhereNotExists, hany2]
  rw [hins1, hins2, hc1]

theorem c3_idempotent_insert_witness :
    (sameKey ⟨str "t", str "s", str "c", PyFloat.finite 35 (-1), str "e"⟩
        ⟨str "t", str "s", str "c", PyFloat.finite 12 0, str "x"⟩ = true ∧
      countKey [] ⟨str "t", str "s", str "c", PyFloat.finite 35 (-1), str "e"⟩ = 0) ∧
    countKey (insertSample false (insertSample true []
        ⟨str "t", str "s", str "c", PyFloat.finite 35 (-1), str "e"⟩)
        ⟨str "t", str "s", str "c", PyFloat.finite 12 0, str "x"⟩)
      ⟨str "t", str "s", str "c", PyFloat.finite 35 (-1), str "e"⟩ = 1 :=
  ⟨⟨by decide, by decide⟩,
    c3_idempotent_insert [] _ _ true false (by decide) (by decide)⟩

/-- C4: partial-line safety. First, a poll whose final bytes form an
unterminated (boundary-free) fragment emits nothing determined by that
fragment: its output is unchanged when the fragment's bytes are replaced
by any other boundary-free bytes, from any state — discovering or
tailing. Second, in the tailing regime the closed form makes this
exact: the output consists solely of the lines completed before the
fragment, and the fragment is retained as the suffix of the pending
tail, not emitted. Third, the poll that later observes the terminating
bytes emits the reassembled line's measurements exactly once: two
successive polls produce the state and the concatenated measurement
list of one poll over the whole content. -/
theorem c4_partial_line_safety :
    (∀ (st : FileState) (c f g : Str), noTermB f = true → f ≠ [] →
        noTermB g = true → g ≠ [] → st.pos ≤ c.length →
        (read_new_measurements (c ++ f) st).2 = (read_new_measurements (c ++ g) st).2) ∧
      (∀ (st : FileState) (c f : Str), st.header_found = true → noTermB f = true →
        f ≠ [] → st.pos ≤ c.length →
        (read_new_measurements (c ++ f) st).2 =
            msOfLines st.source st.channels st.channel_cols (pyBasename st.path)
              (splitK (termPart (st.remainder ++ c.drop st.pos))) ∧
          (read_new_measurements (c ++ f) st).1.remainder =
            fragPart (st.remainder ++ c.drop st.pos) ++ f) ∧
      (∀ (st : FileState) (c e : Str), st.header_found = true → st.pos ≤ c.length →
        (read_new_measurements (c ++ e) (read_new_measurements c st).1).1 =
            (read_new_measurements (c ++ e) st).1 ∧
          (read_new_measurements c st).2 ++
              (read_new_measurements (c ++ e) (read_new_measurements c st).1).2 =
            (read_new_measurements (c ++ e) st).2) :=
  ⟨fun _ _ _ _ hf hfne hg hgne hpos => frag_indep hf hfne hg hgne hpos,
   fun _ _ _ h hf hfne hpos => read_frag_closed h hf hfne hpos,
   fun _ _ _ h hpos => poll_merge h hpos⟩

theorem c4_partial_line_safety_witness :
    (noTermB (str "1,2,3") = true ∧ (str "1,2,3" : Str) ≠ [] ∧
        noTermB (str "9") = true ∧ (str "9" : Str) ≠ [] ∧
        cexTailSt.pos ≤ (str "t,1,2.0\n").length ∧ cexTailSt.header_found = true) ∧
      (read_new_measurements (str "t,1,2.0\n" ++ str "1,2,3") cexTailSt).2 =
          (read_new_measurements (str "t,1,2.0\n" ++ str "9") cexTailSt).2 ∧
      ((read_new_measurements (str "t,1,2.0\n" ++ str "1,2,3") cexTailSt).2 =
          msOfLines cexTailSt.source cexTailSt.channels cexTailSt.channel_cols
            (pyBasename cexTailSt.path)
            (splitK (termPart (cexTailSt.remainder ++
              (str "t,1,2.0\n").drop cexTailSt.pos))) ∧
        (read_new_measurements (str "t,1,2.0\n" ++ str "1,2,3") cexTailSt).1.remainder =
          fragPart (cexTailSt.remainder ++ (str "t,1,2.0\n").drop cexTailSt.pos) ++
            str "1,2,3") ∧
      ((read_new_measurements (str "t,1,2.0\n" ++ str "1,2,3.5\n")
            (read_new_measurements (str "t,1,2.0\n") cexTailSt).1).1 =
          (read_new_measurements (str "t,1,2.0\n" ++ str "1,2,3.5\n") cexTailSt).1 ∧
        (read_new_measurements (str "t,1,2.0\n") cexTailSt).2 ++
            (read_new_measurements (str "t,1,2.0\n" ++ str "1,2,3.5\n")
              (read_new_measurements (str "t,1,2.0\n") cexTailSt).1).2 =
          (read_new_measurements (str "t,1,2.0\n" ++ str "1,2,3.5\n") cexTailSt).2) :=
  ⟨⟨by decide, by decide, by decide, by decide, by decide, by decide⟩,
    c4_partial_line_safety.1 cexTailSt (str "t,1,2.0\n") (str "1,2,3") (str "9")
      (by decide) (by decide) (by decide) (by decide) (by decide),
    c4_partial_line_safety.2.1 cexTailSt (str "t,1,2.0\n") (str "1,2,3")
      (by decide) (by decide) (by decide) (by decide),
    c4_partial_line_safety.2.2 cexTailSt (str "t,1,2.0\n") (str "1,2,3.5\n")
      (by decide) (by decide)⟩

/-- C5 counterexample: a line whose first cell is exactly the
`HEADER_LEADER` literal (spec strategy 1) but whose second cell is not
the row-marker label is not accepted as a header — neither by the check
itself nor by a full poll over a file containing that line. -/
theorem c5_leader_line_rejected :
    specStratOne (csvRow cexLeaderLine) = true ∧
      headerCheck (csvRow cexLeaderLine) = false ∧
      (read_new_measurements (cexLeaderLine ++ str "\n") cexInit).1.header_found = false := by
  decide

/-- C5 (amended): for any line that `csv.reader` parses without raising
— `csvRow? line = some row`; on a line with an interior bare
`'\r'`/`'\n'` followed by content the source instead dies of an
uncaught `_csv.Error` — the detector recognises a header solely by the
row-marker strategy: cell index 1 of the parsed row equals
`"scan number"` case-insensitively after stripping; and, when it fires,
it binds exactly the non-blank stripped cells from index 2 on, at their
original absolute column indices. -/
theorem c5_detector_binds_by_row_marker_only (st : FileState) (line : Str)
    (row : List Str) (h : st.header_found = false) (hrow : csvRow? line = some row) :
    ((discoverGo st [line]).header_found = true ↔ headerCheck row = true) ∧
      (headerCheck row = true →
        (discoverGo st [line]).channels = specBindNames row ∧
          (discoverGo st [line]).channel_cols = specBindCols row) := by
  have hcr : csvRow line = row := by
    rw [csvRow?] at hrow
    by_cases hok : csvOkB line = true
    · rw [if_pos hok] at hrow
      exact Option.some.inj hrow
    · rw [if_neg hok] at hrow
      cases hrow
  subst hcr
  constructor
  · constructor
    · intro h2
      by_cases hch : headerCheck (csvRow line) = true
      · exact hch
      · rw [discoverGo_cons, if_neg hch, discoverGo_nil] at h2
        exact absurd h2 (by simp [h])
    · intro hch
      rw [discoverGo_cons, if_pos hch]
      rfl
  · intro hch
    rw [discoverGo_cons, if_pos hch]
    have hlen : 1 < (csvRow line).length := by
      rw [headerCheck, decide_eq_true_eq] at hch
      exact hch.1
    have hspec := channelsFrom_spec (csvRow line) ((csvRow line).length - 2) 2 (by omega)
    constructor
    · show (channelsFrom ((csvRow line).drop 2) 2).1 = _
      rw [hspec]
      rfl
    · show (channelsFrom ((csvRow line).drop 2) 2).2 = _
      rw [hspec]
      rfl

theorem c5_detector_witness :
    (cexInit.header_found = false ∧
        csvRow? (str "T,Scan Number,A,,B") = some (csvRow (str "T,Scan Number,A,,B"))) ∧
      (((discoverGo cexInit [str "T,Scan Number,A,,B"]).header_found = true ↔
          headerCheck (csvRow (str "T,Scan Number,A,,B")) = true) ∧
        (headerCheck (csvRow (str "T,Scan Number,A,,B")) = true →
          (discoverGo cexInit [str "T,Scan Number,A,,B"]).channels =
              specBindNames (csvRow (str "T,Scan Number,A,,B")) ∧
            (discoverGo cexInit [str "T,Scan Number,A,,B"]).channel_cols =
              specBindCols (csvRow (str "T,Scan Number,A,,B")))) :=
  ⟨⟨by decide, by decide⟩,
    c5_detector_binds_by_row_marker_only cexInit _ _ (by decide) (by decide)⟩

/-- C6 counterexample: a truncation poll does not clear the
column-index list. From a reachable bound state with
`channel_cols = [2]`, a poll seeing the empty file leaves
`channel_cols = [2]`, not `[]`. -/
theorem c6_truncation_keeps_channel_cols :
    ([] : Str).length < cexBound.pos ∧ cexTrunc.channels = [] ∧
      cexTrunc.header_found = false ∧ cexTrunc.channel_cols = [2] ∧
      cexTrunc.channel_cols ≠ [] := by
  decide

/-- C6 (amended): when a poll observes a file size strictly below the
cursor, the state is reset — cursor 0, empty pending tail, header
unknown, channel-name list cleared — before any further processing, but
the column-index list is left unchanged (stale until the next header
binds). -/
theorem c6_truncation_reset (st : FileState) (content : Str)
    (h : content.length < st.pos) :
    read_new_measurements content st = readAfterTrunc content (truncReset st) ∧
      (truncReset st).pos = 0 ∧ (truncReset st).remainder = [] ∧
      (truncReset st).header_found = false ∧ (truncReset st).channels = [] ∧
      (truncReset st).channel_cols = st.channel_cols := by
  refine ⟨?_, rfl, rfl, rfl, rfl, rfl⟩
  rw [read_new_measurements, if_pos h]

theorem c6_truncation_reset_witness :
    ([] : Str).length < cexBound.pos ∧
      (read_new_measurements [] cexBound = readAfterTrunc [] (truncReset cexBound) ∧
        (truncReset cexBound).pos = 0 ∧ (truncReset cexBound).remainder = [] ∧
        (truncReset cexBound).header_found = false ∧
        (truncReset cexBound).channels = [] ∧
        (truncReset cexBound).channel_cols = cexBound.channel_cols) :=
  ⟨by decide, c6_truncation_reset cexBound [] (by decide)⟩

/-- C7 counterexample: the extractor emits non-finite values. A data row
whose bound cell reads `inf` produces a measurement carrying positive
infinity — `float("inf")` parses, and no finiteness check exists. -/
theorem c7_nonfinite_value_emitted :
    (read_new_measurements cexInfContent cexInit).2 =
        [⟨str "1", str "iso", str "A", PyFloat.pinf, str "log"⟩] ∧
      PyFloat.isFiniteV PyFloat.pinf = false := by
  decide

/-- C7 (amended): for an accepted data row, a measurement is emitted for
a bound (channel, column) pair exactly when the column is within the
row, the stripped cell is non-blank, and the cell parses as a Python
float — including the non-finite `inf`/`infinity`/`nan` literals; blank
or non-parsing cells yield nothing. No finiteness check is applied. -/
theorem c7_emission_gate (source : Str) (channels : List Str) (cols : List Nat)
    (extra : Str) (row : List Str) (m : Meas)
    (h2 : ¬ row.length < 2)
    (hscan : pyIntOk (pyStrip (row.getD 1 [])) = true)
    (hch : channels ≠ []) (hcc : cols ≠ []) :
    m ∈ rowMeas source channels cols extra row ↔
      ∃ nc ∈ channels.zip cols,
        nc.2 < row.length ∧ pyStrip (row.getD nc.2 []) ≠ [] ∧
        pyFloat? (pyStrip (row.getD nc.2 [])) = some m.value ∧
        m = ⟨pyStrip (row.getD 0 []), source, nc.1, m.value, extra⟩ := by
  have hch' : channels.isEmpty = false := by
    cases channels
    · exact absurd rfl hch
    · rfl
  have hcc' : cols.isEmpty = false := by
    cases cols
    · exact absurd rfl hcc
    · rfl
  simp only [rowMeas]
  rw [if_neg h2, hscan]
  rw [Bool.not_true, if_neg (show ¬ (false = true) from by simp)]
  rw [hch', hcc']
  rw [if_neg (show ¬ ((false || false) = true) from by simp)]
  rw [List.mem_filterMap]
  constructor
  · rintro ⟨nc, hmem, hF⟩
    refine ⟨nc, hmem, ?_⟩
    by_cases hlt : nc.2 < row.length
    · rw [if_pos hlt] at hF
      by_cases hv : pyStrip (row.getD nc.2 []) = []
      · rw [if_pos hv] at hF
        cases hF
      · rw [if_neg hv] at hF
        cases hpf : pyFloat? (pyStrip (row.getD nc.2 [])) with
        | none =>
          rw [hpf] at hF
          cases hF
        | some x =>
          rw [hpf] at hF
          have hm := Option.some.inj hF
          subst hm
          exact ⟨hlt, hv, rfl, rfl⟩
    · rw [if_neg hlt] at hF
      cases hF
  · rintro ⟨nc, hmem, hlt, hv, hpf, hm⟩
    refine ⟨nc, hmem, ?_⟩
    rw [if_pos hlt, if_neg hv, hpf]
    conv_rhs => rw [hm]

theorem c7_emission_gate_witness :
    (¬ ([str "t", str "1", str "inf", str "x"] : List Str).length < 2 ∧
        pyIntOk (pyStrip (([str "t", str "1", str "inf", str "x"] : List Str).getD 1 []))
          = true ∧
        ([str "A"] : List Str) ≠ [] ∧ ([2] : List Nat) ≠ []) ∧
      ((⟨str "t", str "s", str "A", PyFloat.pinf, str "e"⟩ : Meas) ∈
          rowMeas (str "s") [str "A"] [2] (str "e")
            [str "t", str "1", str "inf", str "x"] ↔
        ∃ nc ∈ ([str "A"] : List Str).zip ([2] : List Nat),
          nc.2 < ([str "t", str "1", str "inf", str "x"] : List Str).length ∧
          pyStrip (([str "t", str "1", str "inf", str "x"] : List Str).getD nc.2 []) ≠ [] ∧
          pyFloat? (pyStrip (([str "t", str "1", str "inf", str "x"] : List Str).getD nc.2 []))
            = some (⟨str "t", str "s", str "A", PyFloat.pinf, str "e"⟩ : Meas).value ∧
          (⟨str "t", str "s", str "A", PyFloat.pinf, str "e"⟩ : Meas) =
            ⟨pyStrip (([str "t", str "1", str "inf", str "x"] : List Str).getD 0 []),
              str "s", nc.1,
              (⟨str "t", str "s", str "A", PyFloat.pinf, str "e"⟩ : Meas).value,
              str "e"⟩) :=
  ⟨⟨by decide, by decide, by decide, by decide⟩,
    c7_emission_gate (str "s") [str "A"] [2] (str "e")
      [str "t", str "1", str "inf", str "x"]
      ⟨str "t", str "s", str "A", PyFloat.pinf, str "e"⟩
      (by decide) (by decide) (by decide) (by decide)⟩

/-- C8 counterexample: the watch loop has no sampling point between the
cycle's work and the sleep — one unrolled iteration with the stop
predicate false is `check, work, sleep`, and its sleep is not
immediately preceded by a check. -/
theorem c8_no_sample_before_sleep :
    watchActs (fun _ => false) 0 1 = [WAct.check, WAct.work, WAct.sleep] ∧
      checkGuardsSleep (watchActs (fun _ => false) 0 1) = false := by
  decide

/-- C8 (amended): the stop predicate is sampled exactly once per
iteration, at the top of the loop — before that cycle's work (every
`work` is immediately preceded by the `check`), never between the work
and the sleep (every `sleep` is immediately preceded by the `work`) —
and a true sample returns at once, without invoking the tailer again. -/
theorem c8_single_sample_per_cycle (stop : Nat → Bool) (n k : Nat)
    (h : stop k = true) :
    workGuardsSleep (watchActs stop k n) = true ∧
      checkGuardsWork (watchActs stop k n) = true ∧
      watchActs stop k (n + 1) = [WAct.check, WAct.ret] :=
  ⟨(watchActs_guards stop n k).1, (watchActs_guards stop n k).2,
    watchActs_stop_immediate n h⟩

theorem c8_single_sample_witness :
    ((fun _ : Nat => true) 0 = true) ∧
      (workGuardsSleep (watchActs (fun _ => true) 0 3) = true ∧
        checkGuardsWork (watchActs (fun _ => true) 0 3) = true ∧
        watchActs (fun _ => true) 0 (3 + 1) = [WAct.check, WAct.ret]) :=
  ⟨rfl, c8_single_sample_per_cycle (fun _ => true) 3 0 rfl⟩

/-- C9: the commit policy. The run always ends with exactly one final
flush followed by the close, whatever was delivered and whether or not
any threshold was reached; and within the loop a flush follows the k-th
delivered row exactly when the cumulative attempt count `k+1` is a
multiple of `commit_every` or at least `commit_seconds` have elapsed
since the last flush. -/
theorem c9_commit_policy (N : Nat) (T t0 : ℚ) (ts : List ℚ) :
    (∃ body, ingestRun N T t0 ts = body ++ [IEv.flush, IEv.close] ∧
        IEv.close ∉ body) ∧
      ingestLoop N T 0 t0 ts =
        (List.range ts.length).flatMap fun k =>
          IEv.ins ::
            (if (k + 1) % N = 0 ∨ T ≤ ts.getD k 0 - lastFlushFrom N T 0 t0 ts k
             then [IEv.flush] else []) := by
  refine ⟨⟨ingestLoop N T 0 t0 ts, rfl, ingestLoop_no_close N T ts 0 t0⟩, ?_⟩
  have h := ingestLoop_flush_iff N T ts 0 t0
  simpa using h

/-- C10 counterexample: a reachable state violates the claimed
binding-shape invariant — after a header is bound and a truncation poll
follows, the channel-name list is empty while the column-index list
still holds one entry. -/
theorem c10_reachable_binding_mismatch :
    Reachable cexTrunc ∧ cexTrunc.channels.length ≠ cexTrunc.channel_cols.length :=
  ⟨Reachable.poll cexBound []
      (Reachable.poll cexInit cexHdrContent
        (Reachable.init (str "log") (str "iso") true)),
    by decide⟩

/-- C10 (amended): every reachable state in the tailing regime
(`header_found = true`) has well-shaped bindings — equally long name and
column lists, strictly increasing columns all at least 2 — so the
zip-based emission covers every binding. The invariant as originally
claimed fails for the truncated states exhibited separately. -/
theorem c10_bindings_wf_when_tailing (st : FileState) (h : Reachable st)
    (hh : st.header_found = true) :
    bindingsWF st ∧
      (st.channels.zip st.channel_cols).length = st.channels.length := by
  have hwf := reachable_inv h hh
  refine ⟨hwf, ?_⟩
  rw [List.length_zip, hwf.1]
  exact Nat.min_self _

theorem c10_bindings_witness :
    (Reachable cexBound ∧ cexBound.header_found = true) ∧
      (bindingsWF cexBound ∧
        (cexBound.channels.zip cexBound.channel_cols).length =
          cexBound.channels.length) :=
  ⟨⟨Reachable.poll cexInit cexHdrContent
      (Reachable.init (str "log") (str "iso") true), by decide⟩,
    c10_bindings_wf_when_tailing cexBound
      (Reachable.poll cexInit cexHdrContent
        (Reachable.init (str "log") (str "iso") true))
      (by decide)⟩

end LogMerge
